import Mathlib

set_option maxRecDepth 8000

/-!
Shallow embedding of the neteng_utils repository scripts, together with
theorems checking the natural-language specification against the code.
Each module below embeds one source file's relevant functions; machine
behaviour (REST calls, file writes) is made explicit as returned data.
-/

namespace NetengUtils

/-- Python `str.strip()` with no argument on the ASCII strings handled
here: drop leading and trailing whitespace.  Implemented over the
character list so that it evaluates by kernel reduction. -/
def pyStrip (s : String) : String :=
  String.mk (((s.data.dropWhile Char.isWhitespace).reverse.dropWhile
    Char.isWhitespace).reverse)

namespace Retry

/-- Outcome of one call of a wrapped function: a value, or a raised
exception carrying a value of type `E`. -/
inductive CallResult (E A : Type) where
  | ok (a : A)
  | exn (e : E)
deriving DecidableEq, Repr

/-- Loop body of `with_retries` in
`netbox_utils/bind_to_netbox_migration/update_managed_unmanaged_records.py`:
`for i in range(1, attempts + 1): try: return fn(...) except: last_exc = e;
if i == attempts: raise; time.sleep(wait_s)` and a trailing
`raise last_exc` (reachable only when the loop never ran, with
`last_exc = None`, modelled as `Except.error none`).
`f i` is the outcome of the i-th call of `fn` (1-indexed); the fuel
argument counts remaining loop iterations.  Returns the overall result
together with the number of calls of `fn` actually made. -/
def goRetries {E A : Type} (f : Nat → CallResult E A) (attempts : Nat) :
    Nat → Nat → Except (Option E) A × Nat
  | _, 0 => (Except.error none, 0)
  | i, fuel + 1 =>
    match f i with
    | CallResult.ok a => (Except.ok a, 1)
    | CallResult.exn e =>
      if i = attempts then (Except.error (some e), 1)
      else
        let r := goRetries f attempts (i + 1) fuel
        (r.1, r.2 + 1)

/-- Embedding of `with_retries(fn, *args, attempts, wait_s)`: the loop runs
over `range(1, attempts + 1)`, so it starts at call index 1 with `attempts`
iterations of fuel. -/
def with_retries {E A : Type} (f : Nat → CallResult E A) (attempts : Nat) :
    Except (Option E) A × Nat :=
  goRetries f attempts 1 attempts

/-- Helper: call count of a `with_retries` run. -/
def retryCalls {E A : Type} (f : Nat → CallResult E A) (attempts : Nat) : Nat :=
  (with_retries f attempts).2

theorem goRetries_calls_le {E A : Type} (f : Nat → CallResult E A)
    (attempts : Nat) : ∀ fuel i, (goRetries f attempts i fuel).2 ≤ fuel := by
  intro fuel
  induction fuel with
  | zero => intro i; simp [goRetries]
  | succ n ih =>
    intro i
    simp only [goRetries]
    cases f i with
    | ok a => simp
    | exn e =>
      by_cases h : i = attempts
      · simp [h]
      · simp only [h, if_false]
        exact Nat.succ_le_succ (ih (i + 1))

theorem goRetries_first_ok {E A : Type} (f : Nat → CallResult E A)
    (attempts : Nat) :
    ∀ fuel i k a, i ≤ k → k < i + fuel → k ≤ attempts → f k = CallResult.ok a →
      (∀ j, i ≤ j → j < k → ∃ e, f j = CallResult.exn e) →
      goRetries f attempts i fuel = (Except.ok a, k + 1 - i) := by
  intro fuel
  induction fuel with
  | zero => intro i k a h1 h2; omega
  | succ n ih =>
    intro i k a h1 h2 h3 hok hprev
    by_cases hik : i = k
    · subst hik
      simp [goRetries, hok]
    · have hlt : i < k := lt_of_le_of_ne h1 hik
      obtain ⟨e, he⟩ := hprev i (le_refl i) hlt
      have hne : i ≠ attempts := by omega
      simp only [goRetries, he, hne, if_false]
      have := ih (i + 1) k a (by omega) (by omega) h3 hok
        (fun j hj1 hj2 => hprev j (by omega) hj2)
      rw [this]
      simp
      omega

theorem goRetries_all_exn {E A : Type} (f : Nat → CallResult E A)
    (attempts : Nat) :
    ∀ fuel i, i + fuel = attempts + 1 → 1 ≤ fuel →
      (∀ j, i ≤ j → j ≤ attempts → ∃ e, f j = CallResult.exn e) →
      ∃ e, f attempts = CallResult.exn e ∧
        goRetries f attempts i fuel = (Except.error (some e), fuel) := by
  intro fuel
  induction fuel with
  | zero => intro i h1 h2; omega
  | succ n ih =>
    intro i h1 _ hall
    obtain ⟨e, he⟩ := hall i (le_refl i) (by omega)
    by_cases hia : i = attempts
    · subst hia
      refine ⟨e, he, ?_⟩
      have hn : n = 0 := by omega
      subst hn
      simp [goRetries, he]
    · have hn : 1 ≤ n := by omega
      obtain ⟨e', he', hgo⟩ := ih (i + 1) (by omega) hn
        (fun j hj1 hj2 => hall j (by omega) hj2)
      refine ⟨e', he', ?_⟩
      simp [goRetries, he, hia, hgo]

/-- C3: with `attempts ≥ 1`, `with_retries` calls `fn` at most `attempts`
times; if the first `k - 1` calls raise and the k-th call (k ≤ attempts)
returns a value, the result is that value after exactly `k` calls; and if
all `attempts` calls raise, the exception of the final attempt is re-raised
after exactly `attempts` calls. -/
theorem C3_with_retries_spec {E A : Type} (f : Nat → CallResult E A)
    (attempts : Nat) (h1 : 1 ≤ attempts) :
    retryCalls f attempts ≤ attempts ∧
    (∀ k a, 1 ≤ k → k ≤ attempts → f k = CallResult.ok a →
      (∀ j, 1 ≤ j → j < k → ∃ e, f j = CallResult.exn e) →
      with_retries f attempts = (Except.ok a, k)) ∧
    ((∀ j, 1 ≤ j → j ≤ attempts → ∃ e, f j = CallResult.exn e) →
      ∃ e, f attempts = CallResult.exn e ∧
        with_retries f attempts = (Except.error (some e), attempts)) := by
  refine ⟨goRetries_calls_le f attempts attempts 1, ?_, ?_⟩
  · intro k a hk1 hk2 hok hprev
    have := goRetries_first_ok f attempts attempts 1 k a hk1 (by omega) hk2
      hok hprev
    rw [with_retries, this]
    simp
  · intro hall
    exact goRetries_all_exn f attempts attempts 1 (by omega) h1 hall

/-- Witness for C3 at a concrete run: two attempts, the first raises and the
second succeeds. -/
theorem C3_witness :
    (1 : Nat) ≤ 2 ∧
    with_retries (fun i => if i = 1 then CallResult.exn 7 else CallResult.ok 42)
      2 = (Except.ok 42, 2) := by
  refine ⟨by decide, ?_⟩
  have h := (C3_with_retries_spec
    (fun i => if i = 1 then CallResult.exn (7 : Nat) else CallResult.ok (42 : Nat))
    2 (by decide)).2.1
  refine h 2 42 (by decide) (by decide) (by decide) ?_
  intro j hj1 hj2
  have hj : j = 1 := by omega
  subst hj
  exact ⟨7, by decide⟩

end Retry

namespace MacSync

/-- NetBox MAC-address object as returned by
`rest_list_interface_macs` in `network_to_netbox/mac_sync.py`: its id and
its (possibly missing) `mac_address` value. -/
structure MacObj where
  id : Nat
  mac_address : Option String
deriving DecidableEq, Repr

/-- Set comprehension from `compute_changes`:
`{o.get("mac_address") for o in existing_objs if o.get("mac_address")}`
(missing and empty values are falsy and excluded). -/
def existingVals (existing_objs : List MacObj) : Finset String :=
  ((existing_objs.filterMap MacObj.mac_address).filter (fun v => v ≠ "")).toFinset

/-- Membership test `o.get("mac_address") not in desired` from
`compute_changes` (a missing value, `None`, is never in a set of strings). -/
def notInDesired (desired : Finset String) (o : MacObj) : Bool :=
  match o.mac_address with
  | none => true
  | some v => decide (v ∉ desired)

/-- Embedding of `compute_changes(desired, existing_objs)`. -/
def compute_changes (desired : Finset String) (existing_objs : List MacObj) :
    Finset String × List MacObj :=
  let existing_vals := existingVals existing_objs
  let to_add := desired \ existing_vals
  let to_remove := existing_objs.filter (notInDesired desired)
  (to_add, to_remove)

/-- Embedding of `sync_interface_macs(nb_iface, desired_macs_uc)` on the run
where every REST delete and create succeeds (the claim's hypothesis).  The
interface's MAC objects are `existing`; deletes go by object id
(`rest_delete_mac(obj["id"])`), creates run over `sorted(to_add)` and
`rest_create_mac` assigns fresh ids (modelled as `freshBase + position`).
Returns `(adds, removes, final list of MAC objects)`; the primary-MAC
hygiene PATCHes touch only the interface's primary pointer, not its MAC
object list. -/
def sync_interface_macs (desired : Finset String) (existing : List MacObj)
    (freshBase : Nat) : Nat × Nat × List MacObj :=
  let ch := compute_changes desired existing
  let to_add := ch.1
  let to_remove := ch.2
  let removedIds := to_remove.map MacObj.id
  let kept := existing.filter (fun o => decide (o.id ∉ removedIds))
  let addList := to_add.sort (· ≤ ·)
  let created := addList.enum.map
    (fun p => MacObj.mk (freshBase + p.1) (some p.2))
  (addList.length, to_remove.length, kept ++ created)

/-- MAC value set of a list of NetBox MAC objects. -/
def macSet (objs : List MacObj) : Finset String :=
  (objs.filterMap MacObj.mac_address).toFinset

theorem mem_existingVals (existing : List MacObj) (m : String) :
    m ∈ existingVals existing ↔
      m ≠ "" ∧ ∃ o ∈ existing, o.mac_address = some m := by
  simp only [existingVals, List.mem_toFinset, List.mem_filter,
    List.mem_filterMap, decide_eq_true_eq]
  constructor
  · rintro ⟨⟨o, ho, hm⟩, hne⟩
    exact ⟨hne, o, ho, hm⟩
  · rintro ⟨hne, o, ho, hm⟩
    exact ⟨⟨o, ho, hm⟩, hne⟩

theorem to_remove_sub (desired : Finset String) (existing : List MacObj) :
    ∀ o ∈ (compute_changes desired existing).2, o ∈ existing := by
  intro o ho
  simp only [compute_changes, List.mem_filter] at ho
  exact ho.1

theorem mem_to_remove (desired : Finset String) (existing : List MacObj)
    (o : MacObj) :
    o ∈ (compute_changes desired existing).2 ↔
      o ∈ existing ∧ (∀ v, o.mac_address = some v → v ∉ desired) := by
  simp only [compute_changes, List.mem_filter, notInDesired]
  constructor
  · rintro ⟨ho, hb⟩
    refine ⟨ho, ?_⟩
    intro v hv
    rw [hv] at hb
    simpa using hb
  · rintro ⟨ho, hb⟩
    refine ⟨ho, ?_⟩
    cases hmac : o.mac_address with
    | none => simp
    | some v => simpa using hb v hmac

/-- C1: `compute_changes` returns exactly the desired MACs absent from the
existing objects' values as `to_add` and exactly the existing objects whose
value is not desired as `to_remove`; when every issued delete and create
succeeds, the interface's MAC value set after `sync_interface_macs` equals
the desired set, no create targets an already-present MAC and no delete
targets an object whose value is desired.  Hypotheses: desired holds MAC
strings (non-empty) and NetBox object ids are unique. -/
theorem C1_mac_reconciliation (desired : Finset String) (existing : List MacObj)
    (freshBase : Nat) (hmac : "" ∉ desired)
    (hids : (existing.map MacObj.id).Nodup) :
    (compute_changes desired existing).1 =
      desired.filter (fun m => ∀ o ∈ existing, o.mac_address ≠ some m) ∧
    (∀ o, o ∈ (compute_changes desired existing).2 ↔
      o ∈ existing ∧ ∀ v, o.mac_address = some v → v ∉ desired) ∧
    macSet (sync_interface_macs desired existing freshBase).2.2 = desired ∧
    (∀ m ∈ (compute_changes desired existing).1,
      ∀ o ∈ existing, o.mac_address ≠ some m) ∧
    (∀ o ∈ (compute_changes desired existing).2,
      ∀ v, o.mac_address = some v → v ∉ desired) := by
  have hadd : ∀ m, m ∈ (compute_changes desired existing).1 ↔
      m ∈ desired ∧ ∀ o ∈ existing, o.mac_address ≠ some m := by
    intro m
    simp only [compute_changes, Finset.mem_sdiff, mem_existingVals]
    constructor
    · rintro ⟨hm, hnot⟩
      refine ⟨hm, ?_⟩
      intro o ho he
      exact hnot ⟨fun h0 => hmac (h0 ▸ hm), o, ho, he⟩
    · rintro ⟨hm, hnone⟩
      refine ⟨hm, ?_⟩
      rintro ⟨_, o, ho, he⟩
      exact hnone o ho he
  refine ⟨?_, ?_, ?_, ?_, ?_⟩
  · ext m
    rw [hadd m, Finset.mem_filter]
  · exact mem_to_remove desired existing
  · -- final MAC set equals desired
    ext m
    simp only [macSet, sync_interface_macs, List.filterMap_append,
      List.mem_toFinset, List.mem_append, List.mem_filterMap,
      List.mem_filter, decide_eq_true_eq]
    constructor
    · rintro (⟨o, ⟨ho, hoid⟩, hom⟩ | ⟨o, ho, hom⟩)
      · -- kept object: its value must be desired, else it was removed
        by_contra hm
        have hrem : o ∈ (compute_changes desired existing).2 := by
          rw [mem_to_remove]
          refine ⟨ho, ?_⟩
          intro v hv
          rw [hv] at hom
          injection hom with h2
          exact h2 ▸ hm
        exact hoid (List.mem_map_of_mem MacObj.id hrem)
      · -- created object: its value is in to_add ⊆ desired
        simp only [List.mem_map] at ho
        obtain ⟨⟨i, v⟩, hiv, hco⟩ := ho
        have hv : v ∈ (compute_changes desired existing).1.sort (· ≤ ·) :=
          List.getElem?_mem (List.mk_mem_enum_iff_getElem?.1 hiv)
        rw [Finset.mem_sort] at hv
        have hvd := (hadd v).1 hv
        cases hco
        simp only [MacObj.mac_address] at hom
        cases hom
        exact hvd.1
    · intro hm
      by_cases hex : ∃ o ∈ existing, o.mac_address = some m
      · -- already present: the object is kept
        obtain ⟨o, ho, hom⟩ := hex
        left
        refine ⟨o, ⟨ho, ?_⟩, hom⟩
        intro hid
        obtain ⟨o', ho', hid'⟩ := List.mem_map.1 hid
        have ho'ex := to_remove_sub desired existing o' ho'
        have heq : o' = o := List.inj_on_of_nodup_map hids ho'ex ho hid'
        subst heq
        rw [mem_to_remove] at ho'
        exact ho'.2 m hom hm
      · -- missing: it is created
        right
        push_neg at hex
        have hv : m ∈ (compute_changes desired existing).1 :=
          (hadd m).2 ⟨hm, fun o ho => hex o ho⟩
        rw [← Finset.mem_sort (α := String) (· ≤ ·)] at hv
        obtain ⟨n, hn, hval⟩ := List.mem_iff_getElem.1 hv
        refine ⟨MacObj.mk (freshBase + n) (some m), ?_, rfl⟩
        simp only [List.mem_map]
        refine ⟨(n, m), List.mk_mem_enum_iff_getElem?.2 ?_, rfl⟩
        rw [List.getElem?_eq_getElem hn, hval]
  · intro m hm
    exact ((hadd m).1 hm).2
  · intro o ho
    exact (mem_to_remove desired existing o).1 ho |>.2

/-- Witness for C1 at a concrete input: desired `A,B`; existing objects hold
`B` (kept), `C` (removed) and one with no value (removed); `A` is created. -/
theorem C1_witness :
    ("" ∉ ({"AA:AA:AA:AA:AA:AA", "BB:BB:BB:BB:BB:BB"} : Finset String)) ∧
    macSet (sync_interface_macs
        {"AA:AA:AA:AA:AA:AA", "BB:BB:BB:BB:BB:BB"}
        [MacObj.mk 1 (some "BB:BB:BB:BB:BB:BB"),
         MacObj.mk 2 (some "CC:CC:CC:CC:CC:CC"),
         MacObj.mk 3 none] 10).2.2 =
      {"AA:AA:AA:AA:AA:AA", "BB:BB:BB:BB:BB:BB"} := by
  constructor
  · decide
  · exact (C1_mac_reconciliation
      {"AA:AA:AA:AA:AA:AA", "BB:BB:BB:BB:BB:BB"}
      [MacObj.mk 1 (some "BB:BB:BB:BB:BB:BB"),
       MacObj.mk 2 (some "CC:CC:CC:CC:CC:CC"),
       MacObj.mk 3 none] 10 (by decide) (by decide)).2.2.1

/-- Per-device summary dictionary built by `sync_one` in
`network_to_netbox/mac_sync.py`. -/
structure Summary where
  device : String
  adds : Nat
  removes : Nat
  errors : List String
deriving DecidableEq, Repr

/-- Total adds printed by `main`: `sum(s["adds"] for s in summaries)`. -/
def totalAdds (summaries : List Summary) : Nat :=
  (summaries.map Summary.adds).sum

/-- Total removes printed by `main`. -/
def totalRemoves (summaries : List Summary) : Nat :=
  (summaries.map Summary.removes).sum

/-- Total errors printed by `main`: `sum(len(s["errors"]) for s in summaries)`. -/
def totalErrors (summaries : List Summary) : Nat :=
  (summaries.map (fun s => s.errors.length)).sum

/-- C8: the TOTAL line of `main` is order-insensitive: `summaries` is the
per-device results in whatever order `as_completed` yields them, i.e. a
permutation of the submitted tasks' results, and the printed totals equal
the componentwise sums of the per-device values, independent of that
order. -/
theorem C8_totals_order_insensitive (results summaries : List Summary)
    (h : List.Perm summaries results) :
    totalAdds summaries = (results.map Summary.adds).sum ∧
    totalRemoves summaries = (results.map Summary.removes).sum ∧
    totalErrors summaries = (results.map (fun s => s.errors.length)).sum := by
  exact ⟨List.Perm.sum_eq (List.Perm.map _ h),
    List.Perm.sum_eq (List.Perm.map _ h),
    List.Perm.sum_eq (List.Perm.map _ h)⟩

/-- Witness for C8 at a concrete pair of runs in opposite completion order. -/
theorem C8_witness :
    List.Perm [Summary.mk "b" 2 3 ["x"], Summary.mk "a" 1 0 []]
      [Summary.mk "a" 1 0 [], Summary.mk "b" 2 3 ["x"]] ∧
    totalAdds [Summary.mk "b" 2 3 ["x"], Summary.mk "a" 1 0 []] = 3 ∧
    totalRemoves [Summary.mk "b" 2 3 ["x"], Summary.mk "a" 1 0 []] = 3 ∧
    totalErrors [Summary.mk "b" 2 3 ["x"], Summary.mk "a" 1 0 []] = 1 := by
  have hp : List.Perm [Summary.mk "b" 2 3 ["x"], Summary.mk "a" 1 0 []]
      [Summary.mk "a" 1 0 [], Summary.mk "b" 2 3 ["x"]] :=
    List.Perm.swap _ _ _
  have h := C8_totals_order_insensitive
    [Summary.mk "a" 1 0 [], Summary.mk "b" 2 3 ["x"]]
    [Summary.mk "b" 2 3 ["x"], Summary.mk "a" 1 0 []] hp
  refine ⟨hp, ?_, ?_, ?_⟩
  · rw [h.1]; rfl
  · rw [h.2.1]; rfl
  · rw [h.2.2]; rfl

end MacSync

namespace Enforce

/-- NetBox IPAddress row as seen by `enforce_ip_tenant_all.py`: primary key,
VRF id (nullable), address family, the host address bits of
`ip_interface(str(ip_obj.address)).ip`, the mask length of the stored
address, and the tenant id (nullable). -/
structure NBIp where
  pk : Nat
  vrf : Option Nat
  isV4 : Bool
  addr : Nat
  maskLen : Nat
  tenant : Option Nat
deriving DecidableEq, Repr

/-- NetBox Prefix row: VRF id, family, address bits as stored, length,
tenant id. -/
structure Pfx where
  vrf : Option Nat
  isV4 : Bool
  addr : Nat
  len : Nat
  tenant : Option Nat
deriving DecidableEq, Repr

/-- Bit width of the address family. -/
def famWidth (isV4 : Bool) : Nat := if isV4 then 32 else 128

/-- Network base address of `ip_network(str(pfx.prefix), strict=False)`:
the stored address with host bits masked off. -/
def netBase (p : Pfx) : Nat :=
  (p.addr >>> (famWidth p.isV4 - p.len)) <<< (famWidth p.isV4 - p.len)

/-- Postgres `<<=` lookup used by
`address__net_contained_or_equal=str(pfx.prefix)`: same family, the IP's
own mask length is at least the prefix length, and the first `len` bits of
the address agree with the prefix. -/
def containedOrEqual (ip : NBIp) (p : Pfx) : Bool :=
  ip.isV4 == p.isV4 && decide (p.len ≤ ip.maskLen) &&
    (ip.addr >>> (famWidth p.isV4 - p.len) == p.addr >>> (famWidth p.isV4 - p.len))

/-- Python `host_ip in net`: the first `len` bits of the host agree with
the prefix. -/
def hostInNet (a : Nat) (p : Pfx) : Bool :=
  a >>> (famWidth p.isV4 - p.len) == p.addr >>> (famWidth p.isV4 - p.len)

/-- Broadcast address of an IPv4 network. -/
def broadcastAddr (p : Pfx) : Nat :=
  netBase p + (2 ^ (famWidth p.isV4 - p.len) - 1)

/-- Membership in the `skip` set built by `_process_one_prefix`: the
network address always; for IPv4 prefixes of length ≤ 30 also the
broadcast address and `_first_usable_ipv4` (network address + 1, which is
`None` only when the length is ≥ 31). -/
def isSkipped (p : Pfx) (a : Nat) : Bool :=
  a == netBase p ||
    (p.isV4 && decide (p.len ≤ 30) && (a == broadcastAddr p)) ||
    (p.isV4 && decide (p.len ≤ 30) && (a == netBase p + 1))

/-- Queryset condition of
`IPAddress.objects.filter(vrf=pfx.vrf, address__net_contained_or_equal=...)`:
same VRF and `<<=` the prefix. -/
def inScope (p : Pfx) (ip : NBIp) : Bool :=
  decide (ip.vrf = p.vrf) && containedOrEqual ip p

/-- Counters of the scan loop of `_process_one_prefix`, plus the collected
`ids_to_update`. -/
structure LoopAcc where
  scanned : Nat
  skippedSpecial : Nat
  matched : Nat
  mismatched : Nat
  idsToUpdate : List Nat
deriving DecidableEq, Repr

/-- One iteration of `for ip_obj in ips.iterator()` in
`_process_one_prefix` (tenant of the prefix is `t`). -/
def loopStep (p : Pfx) (t : Nat) (acc : LoopAcc) (ip : NBIp) : LoopAcc :=
  let acc := { acc with scanned := acc.scanned + 1 }
  if isSkipped p ip.addr then
    { acc with skippedSpecial := acc.skippedSpecial + 1 }
  else if ¬ hostInNet ip.addr p then acc
  else if ip.tenant = some t then
    { acc with matched := acc.matched + 1 }
  else
    { acc with mismatched := acc.mismatched + 1,
               idsToUpdate := acc.idsToUpdate ++ [ip.pk] }

/-- Result counters returned by `_process_one_prefix`. -/
structure Stats where
  total : Nat
  scanned : Nat
  skipped_special : Nat
  matched : Nat
  mismatched : Nat
  changed : Nat
deriving DecidableEq, Repr

/-- Body of `_process_one_prefix` once the prefix's tenant `t` is known:
filter the IP table by VRF and `net_contained_or_equal`, scan, then (when
`commit` and something mismatched) bulk-update the collected pks to the
prefix's tenant.  Chunking by `BULK_CHUNK` only batches the same
pk-membership update, so it is modelled as one pass over the table.
Returns the stats and the table after the run. -/
def processWithTenant (p : Pfx) (t : Nat) (table : List NBIp) (commit : Bool) :
    Stats × List NBIp :=
  let ips := table.filter (inScope p)
  let total := ips.length
  let acc := ips.foldl (loopStep p t) (LoopAcc.mk 0 0 0 0 [])
  if commit ∧ acc.idsToUpdate ≠ [] then
    (Stats.mk total acc.scanned acc.skippedSpecial acc.matched
      acc.mismatched acc.idsToUpdate.length,
     table.map (fun ip =>
       if ip.pk ∈ acc.idsToUpdate then { ip with tenant := some t } else ip))
  else
    (Stats.mk total acc.scanned acc.skippedSpecial acc.matched
      acc.mismatched 0, table)

/-- Embedding of `EnforceIPTenantsToPrefixTenant._process_one_prefix`: a
prefix with no tenant is skipped with zeroed counters. -/
def processOnePfx (p : Pfx) (table : List NBIp) (commit : Bool) :
    Stats × List NBIp :=
  match p.tenant with
  | none => (Stats.mk 0 0 0 0 0 0, table)
  | some t => processWithTenant p t table commit

theorem processOnePfx_some (p : Pfx) (t : Nat) (table : List NBIp)
    (commit : Bool) (ht : p.tenant = some t) :
    processOnePfx p table commit = processWithTenant p t table commit := by
  unfold processOnePfx
  rw [ht]

/-- In-scope mismatch condition: the row would be collected into
`ids_to_update`. -/
def mismB (p : Pfx) (t : Nat) (ip : NBIp) : Bool :=
  !isSkipped p ip.addr && hostInNet ip.addr p && !(decide (ip.tenant = some t))

/-- In-scope match condition: the row is counted as `matched`. -/
def matchB (p : Pfx) (t : Nat) (ip : NBIp) : Bool :=
  !isSkipped p ip.addr && hostInNet ip.addr p && decide (ip.tenant = some t)

theorem loop_ids (p : Pfx) (t : Nat) :
    ∀ (ips : List NBIp) (acc : LoopAcc),
      (ips.foldl (loopStep p t) acc).idsToUpdate =
        acc.idsToUpdate ++ (ips.filter (mismB p t)).map NBIp.pk := by
  intro ips
  induction ips with
  | nil => intro acc; simp
  | cons ip rest ih =>
    intro acc
    rw [List.foldl_cons, ih]
    by_cases h1 : isSkipped p ip.addr
    · simp [loopStep, mismB, h1]
    · by_cases h2 : hostInNet ip.addr p
      · by_cases h3 : ip.tenant = some t
        · simp [loopStep, mismB, h1, h2, h3]
        · simp [loopStep, mismB, h1, h2, h3]
      · simp [loopStep, mismB, h1, h2]

theorem loop_matched (p : Pfx) (t : Nat) :
    ∀ (ips : List NBIp) (acc : LoopAcc),
      (ips.foldl (loopStep p t) acc).matched =
        acc.matched + (ips.filter (matchB p t)).length := by
  intro ips
  induction ips with
  | nil => intro acc; simp
  | cons ip rest ih =>
    intro acc
    rw [List.foldl_cons, ih]
    by_cases h1 : isSkipped p ip.addr
    · simp [loopStep, matchB, h1]
    · by_cases h2 : hostInNet ip.addr p
      · by_cases h3 : ip.tenant = some t
        · simp [loopStep, matchB, h1, h2, h3, Nat.add_comm, Nat.add_assoc,
            Nat.add_left_comm]
        · simp [loopStep, matchB, h1, h2, h3]
      · simp [loopStep, matchB, h1, h2]

theorem contained_host (ip : NBIp) (p : Pfx) (h : containedOrEqual ip p = true) :
    hostInNet ip.addr p = true := by
  simp only [containedOrEqual, Bool.and_eq_true, beq_iff_eq] at h
  simp only [hostInNet, beq_iff_eq]
  exact h.2

/-- C5 (amended): after `_process_one_prefix` with commit on, for a prefix
with a tenant, every IP row of the resulting table that is in the same VRF
and whose address is `net_contained_or_equal` to the prefix carries the
prefix's tenant, except rows whose host is the network address, the
broadcast address (IPv4, length ≤ 30) or the first usable IPv4 host
(network + 1, length < 31), which are skipped; the updated table differs
from the original exactly by setting the tenant on in-scope mismatched
non-skipped rows, and rows whose tenant already matches are counted as
`matched` and not written.  Pks are assumed unique (database primary
keys). -/
theorem C5_enforce_tenant (p : Pfx) (table : List NBIp) (t : Nat)
    (ht : p.tenant = some t)
    (hnodup : (table.map NBIp.pk).Nodup) :
    (∀ ip ∈ (processOnePfx p table true).2,
      ip.vrf = p.vrf → containedOrEqual ip p = true →
      isSkipped p ip.addr = false → ip.tenant = some t) ∧
    (processOnePfx p table true).2 =
      table.map (fun ip =>
        if inScope p ip && mismB p t ip then { ip with tenant := some t }
        else ip) ∧
    (processOnePfx p table true).1.matched =
      ((table.filter (inScope p)).filter (matchB p t)).length := by
  rw [processOnePfx_some p t table true ht]
  have hids : ((table.filter (inScope p)).foldl (loopStep p t)
      (LoopAcc.mk 0 0 0 0 [])).idsToUpdate =
      ((table.filter (inScope p)).filter (mismB p t)).map NBIp.pk := by
    rw [loop_ids]
    simp
  have hmem : ∀ ip ∈ table,
      (ip.pk ∈ ((table.filter (inScope p)).filter (mismB p t)).map NBIp.pk ↔
        (inScope p ip && mismB p t ip) = true) := by
    intro ip hip
    constructor
    · intro hpk
      obtain ⟨ip', hip', hpkeq⟩ := List.mem_map.1 hpk
      have hip'tab : ip' ∈ table := by
        have h1 := List.mem_of_mem_filter hip'
        exact List.mem_of_mem_filter h1
      have heq : ip' = ip := List.inj_on_of_nodup_map hnodup hip'tab hip hpkeq
      subst heq
      simp only [List.mem_filter] at hip'
      simp [hip'.1.2, hip'.2]
    · intro hcond
      simp only [Bool.and_eq_true] at hcond
      refine List.mem_map_of_mem NBIp.pk ?_
      rw [List.mem_filter]
      refine ⟨?_, hcond.2⟩
      rw [List.mem_filter]
      exact ⟨hip, hcond.1⟩
  have htable : (processWithTenant p t table true).2 =
      table.map (fun ip =>
        if inScope p ip && mismB p t ip then { ip with tenant := some t }
        else ip) := by
    unfold processWithTenant
    by_cases hne : ((table.filter (inScope p)).foldl (loopStep p t)
        (LoopAcc.mk 0 0 0 0 [])).idsToUpdate = []
    · rw [if_neg (by simp [hne])]
      have hempty : ∀ ip ∈ table, ¬ ((inScope p ip && mismB p t ip) = true) := by
        intro ip hip hcond
        have h2 := (hmem ip hip).2 hcond
        rw [← hids, hne] at h2
        simp at h2
      conv_lhs => rw [← List.map_id table]
      refine (List.map_congr_left ?_).symm
      intro ip hip
      rw [if_neg (hempty ip hip)]
      rfl
    · rw [if_pos ⟨rfl, hne⟩]
      refine List.map_congr_left ?_
      intro ip hip
      rw [hids]
      by_cases hcond : (inScope p ip && mismB p t ip) = true
      · rw [if_pos ((hmem ip hip).2 hcond), if_pos hcond]
      · rw [if_neg, if_neg hcond]
        intro hpk
        exact hcond ((hmem ip hip).1 hpk)
  refine ⟨?_, htable, ?_⟩
  · intro ip hip hvrf hcont hskip
    rw [htable] at hip
    obtain ⟨ip0, hip0, hmap⟩ := List.mem_map.1 hip
    by_cases hcond : (inScope p ip0 && mismB p t ip0) = true
    · rw [if_pos hcond] at hmap
      rw [← hmap]
    · rw [if_neg hcond] at hmap
      subst hmap
      by_contra hne
      apply hcond
      simp [inScope, mismB, hvrf, hcont, hskip, contained_host ip0 p hcont, hne]
  · unfold processWithTenant
    by_cases hne : ((table.filter (inScope p)).foldl (loopStep p t)
        (LoopAcc.mk 0 0 0 0 [])).idsToUpdate = []
    · rw [if_neg (by simp [hne])]
      simp only [Stats.matched]
      rw [loop_matched]
      simp
    · rw [if_pos ⟨rfl, hne⟩]
      simp only [Stats.matched]
      rw [loop_matched]
      simp

/-- Witness for C5 (amended) at a concrete input: prefix 10.0.0.0/24 with
tenant 1 over a table holding 10.0.0.5/24 (tenant 2, updated) and 10.0.0.1/24
(the first usable host, skipped). -/
theorem C5_witness :
    (Pfx.mk none true (167772160 : Nat) 24 (some 1)).tenant = some 1 ∧
    (processOnePfx (Pfx.mk none true 167772160 24 (some 1))
        [NBIp.mk 1 none true 167772165 24 (some 2),
         NBIp.mk 2 none true 167772161 24 (some 2)] true).2 =
      [NBIp.mk 1 none true 167772165 24 (some 1),
       NBIp.mk 2 none true 167772161 24 (some 2)] := by
  refine ⟨rfl, ?_⟩
  have h := (C5_enforce_tenant (Pfx.mk none true 167772160 24 (some 1))
      [NBIp.mk 1 none true 167772165 24 (some 2),
       NBIp.mk 2 none true 167772161 24 (some 2)] 1 rfl (by decide)).2.1
  rw [h]
  rfl

/-- C5 counterexample input: the claim as stated quantifies over every IP
whose host lies inside the prefix's network, but the queryset filters by
`net_contained_or_equal` on the stored address, so 10.0.0.5/8 (mask
shorter than the /24 prefix) is never updated even though its host
10.0.0.5 is inside 10.0.0.0/24, is in the same VRF and is none of the
skipped special addresses. -/
theorem C5_counterexample :
    (NBIp.mk 1 none true 167772165 8 (some 2)).vrf =
        (Pfx.mk none true 167772160 24 (some 1)).vrf ∧
    hostInNet 167772165 (Pfx.mk none true 167772160 24 (some 1)) = true ∧
    isSkipped (Pfx.mk none true 167772160 24 (some 1)) 167772165 = false ∧
    (processOnePfx (Pfx.mk none true 167772160 24 (some 1))
        [NBIp.mk 1 none true 167772165 8 (some 2)] true).2 =
      [NBIp.mk 1 none true 167772165 8 (some 2)] := by
  refine ⟨rfl, by decide, by decide, by decide⟩

/-- Helper for C10 (enforce part): with commit off, `_process_one_prefix`
applies no tenant update and reports `changed = 0`; the IP table is
unchanged. -/
theorem enforce_commit_off (p : Pfx) (table : List NBIp) :
    (processOnePfx p table false).1.changed = 0 ∧
    (processOnePfx p table false).2 = table := by
  cases ht : p.tenant with
  | none => simp [processOnePfx, ht]
  | some t =>
    rw [processOnePfx_some p t table false ht]
    unfold processWithTenant
    simp

end Enforce

namespace UpdateRecords

/-- Existing NetBox IP record as seen by `create_or_update_ip` in
`bind_to_netbox_migration/update_managed_unmanaged_records.py`: its id and
`dns_name` (nullable; `existing.dns_name or ""` treats `None` as empty). -/
structure ExistingIP where
  id : Nat
  dns_name : Option String
deriving DecidableEq, Repr

/-- NetBox write calls that `create_or_update_ip` can issue. -/
inductive IpWrite where
  | updateIp (id : Nat) (dns_name : String)
  | createIp (address : String) (dns_name : String)
deriving DecidableEq, Repr

/-- Mask part of a prefix string: `best.split('/', 1)[1]` (prefix strings
contain exactly one slash, on which both splits agree). -/
def maskOf (best : String) : String :=
  String.intercalate "/" ((best.splitOn "/").drop 1)

/-- Embedding of `create_or_update_ip(ip, fqdn, prefix_index, dry_run)`.
`lookup` is the (retried) result of `nb.ipam.ip_addresses.get(address=ip)`
(`Except.error` = the lookup raised, caught by the surrounding
`try/except`); `best` is `prefix_index.best_prefix(ip)`; `updOk`/`createOk`
say whether an issued write succeeds.  Returns the `(created, updated)`
flags together with the list of issued NetBox write calls. -/
def create_or_update_ip (lookup : Except Unit (Option ExistingIP))
    (ip fqdn : String) (best : Option String) (updOk createOk : Bool)
    (dry_run : Bool) : (Bool × Bool) × List IpWrite :=
  match lookup with
  | Except.error _ => ((false, false), [])
  | Except.ok (some existing) =>
    let current := pyStrip (existing.dns_name.getD "")
    if current = fqdn then ((false, false), [])
    else if dry_run then ((false, true), [])
    else ((if updOk then (false, true) else (false, false)),
          [IpWrite.updateIp existing.id fqdn])
  | Except.ok none =>
    match best with
    | none => ((false, false), [])
    | some b =>
      let address_cidr := ip ++ "/" ++ maskOf b
      if dry_run then ((true, false), [])
      else ((if createOk then (true, false) else (false, false)),
            [IpWrite.createIp address_cidr fqdn])

/-- NetBox-DNS plugin record as returned by the records filter. -/
structure PluginRec where
  id : Nat
  disable_ptr : Bool
deriving DecidableEq, Repr

/-- Status strings returned by `plugin_check_status`. -/
inductive CheckStatus where
  | exists_ok
  | needs_update
  | needs_create
  | no_zone
  | search_error
deriving DecidableEq, Repr

/-- Embedding of `choose_zone_for_fqdn(fqdn, zones)`: first zone whose name
equals the fqdn (`rel = "@"`), else first zone the fqdn is under
(`rel` = fqdn with the zone suffix removed). -/
def choose_zone_for_fqdn (fq : String) :
    List (Nat × String) → Option (Nat × String × String)
  | [] => none
  | (zid, zname) :: rest =>
    if fq == zname then some (zid, zname, "@")
    else if fq.endsWith ("." ++ zname) then
      some (zid, zname, fq.dropRight (zname.length + 1))
    else choose_zone_for_fqdn fq rest

/-- Embedding of `plugin_check_status(zones, fqdn, rtype, ip_value)`:
`search` is the result of the records filter call. -/
def plugin_check_status (zones : List (Nat × String)) (fqdn : String)
    (search : Except Unit (List PluginRec)) : CheckStatus :=
  match choose_zone_for_fqdn (fqdn.dropRightWhile (fun c => c = '.')) zones with
  | none => CheckStatus.no_zone
  | some _ =>
    match search with
    | Except.error _ => CheckStatus.search_error
    | Except.ok recs =>
      if recs.isEmpty then CheckStatus.needs_create
      else if recs.any (fun r => !r.disable_ptr) then CheckStatus.needs_update
      else CheckStatus.exists_ok

/-- Plugin write calls that `ensure_plugin_record` can issue. -/
inductive PluginWrite where
  | updateRec (id : Nat)
  | createRec (fqdn rtype value : String)
deriving DecidableEq, Repr

/-- Update loop of the `needs_update` branch of `ensure_plugin_record`:
records already carrying `disable_ptr` are skipped, each other record gets
an update call; on the first failing update the function returns
`update_error` at once.  Returns (errored, any_updated, issued calls). -/
def updLoop (updOk : Nat → Bool) : List PluginRec → Bool →
    Bool × Bool × List PluginWrite
  | [], anyU => (false, anyU, [])
  | r :: rest, anyU =>
    if r.disable_ptr then updLoop updOk rest anyU
    else if updOk r.id then
      let res := updLoop updOk rest true
      (res.1, res.2.1, PluginWrite.updateRec r.id :: res.2.2)
    else (true, anyU, [PluginWrite.updateRec r.id])

/-- Embedding of `ensure_plugin_record(zones, fqdn, rtype, ip_value,
dry_run)`.  `search1` is the filter result inside `plugin_check_status`,
`search2` the re-filter in the `needs_update` branch; `updOk`/`createOk`
say whether issued writes succeed.  Returns `((created, updated), reason)`
and the issued plugin write calls. -/
def ensure_plugin_record (zones : List (Nat × String))
    (fqdn rtype ip_value : String)
    (search1 search2 : Except Unit (List PluginRec))
    (updOk : Nat → Bool) (createOk : Bool) (dry_run : Bool) :
    ((Bool × Bool) × String) × List PluginWrite :=
  match plugin_check_status zones fqdn search1 with
  | CheckStatus.no_zone => (((false, false), "no_zone"), [])
  | CheckStatus.search_error => (((false, false), "search_error"), [])
  | CheckStatus.exists_ok => (((false, false), "exists_ok"), [])
  | CheckStatus.needs_update =>
    if dry_run then (((false, true), "updated"), [])
    else
      match search2 with
      | Except.error _ => (((false, false), "search_error"), [])
      | Except.ok recs =>
        let res := updLoop updOk recs false
        if res.1 then (((false, false), "update_error"), res.2.2)
        else if res.2.1 then (((false, true), "updated"), res.2.2)
        else (((false, false), "exists_ok"), res.2.2)
  | CheckStatus.needs_create =>
    if dry_run then (((true, false), "created"), [])
    else if createOk then
      (((true, false), "created"), [PluginWrite.createRec fqdn rtype ip_value])
    else (((false, false), "create_error"), [PluginWrite.createRec fqdn rtype ip_value])

theorem updLoop_allOk (l : List PluginRec) (b : Bool) :
    (updLoop (fun _ => true) l b).1 = false ∧
    (updLoop (fun _ => true) l b).2.1 = (b || l.any (fun r => !r.disable_ptr)) := by
  induction l generalizing b with
  | nil => simp [updLoop]
  | cons r rest ih =>
    by_cases hd : r.disable_ptr
    · simpa [updLoop, hd] using ih b
    · have h2 := ih true
      simp [updLoop, hd, h2.1, h2.2]

end UpdateRecords

namespace AristaSync

/-- Values of the `updated` dict computed from the device in the main loop
of `network_to_netbox/arista_interface_sync.py`: interface type, the
normalised description and the integer speed. -/
structure IfaceVals where
  ty : String
  description : String
  speed : Option Nat
deriving DecidableEq, Repr

/-- A pynetbox choice-field `Record` as the API client returns it for
`interface.type`: an object carrying `value` and `label`, not a plain
string (the sibling scripts read `.value` off such records, e.g.
`sync_vlan_prefix.py`). -/
structure ChoiceRecord where
  value : String
  label : String
deriving DecidableEq, Repr

/-- Python value sitting in the `type` slot read by
`getattr(iface_obj, "type", None)`: pynetbox materialises the choice
field as a `Record` object; `None` is the getattr default. -/
inductive PyStrVal where
  | str (s : String)
  | record (r : ChoiceRecord)
  | null
deriving DecidableEq, Repr

/-- Python `==` between that stored value and a computed string: strings
compare by content, a pynetbox `Record` falls back to identity against a
`str` (always unequal), and `None` never equals a string. -/
def pyStrEq : PyStrVal → String → Bool
  | PyStrVal.str s, v => s == v
  | PyStrVal.record _, _ => false
  | PyStrVal.null, _ => false

/-- Current NetBox interface field values read through
`getattr(iface_obj, k, None)` (description may be null; the type comes
back as a choice `Record`). -/
structure NbIface where
  ty : PyStrVal
  description : Option String
  speed : Option Nat
deriving DecidableEq, Repr

/-- Heterogeneous diff values. -/
inductive FieldVal where
  | s (v : String)
  | n (v : Option Nat)
deriving DecidableEq, Repr

/-- Embedding of the per-interface diff loop (`for k, v in updated.items()`,
insertion order type, description, speed): description is compared after
stripping both sides, the other fields directly. -/
def buildDiff (upd : IfaceVals) (cur : NbIface) : List (String × FieldVal) :=
  (if !(pyStrEq cur.ty upd.ty) then [("type", FieldVal.s upd.ty)] else []) ++
  (if pyStrip (cur.description.getD "") ≠ pyStrip upd.description then
      [("description", FieldVal.s (pyStrip upd.description))] else []) ++
  (if cur.speed ≠ upd.speed then [("speed", FieldVal.n upd.speed)] else [])

/-- The update call is issued only under `if diff:` and `not args.dry_run`. -/
def updateIssued (upd : IfaceVals) (cur : NbIface) (dry_run : Bool) : Bool :=
  !(buildDiff upd cur).isEmpty && !dry_run

end AristaSync

namespace ZoneTransfer

/-- Outcome of one zone's AXFR in
`bind_to_netbox_migration/prod/zone_transfer.py`: a transferred zone with
its nodes (pairs of owner text and rdataset text), or one of the caught
exception classes (`dns.exception.FormError`, `dns.exception.Timeout`,
`dns.query.BadResponse`, anything else).  A `from_xfr` result with no
nodes is `ok []`. -/
inductive XfrOutcome where
  | ok (nodes : List (String × String))
  | formError
  | timeout
  | badResponse
  | otherError
deriving DecidableEq, Repr

/-- Python `zone_name.startswith("#")`. -/
def startsHash (s : String) : Bool :=
  match s.data with
  | c :: _ => c == '#'
  | [] => false

/-- Line-skip condition of the loop: `if not zone_name or
zone_name.startswith("#"): continue`. -/
def skipLine (z : String) : Bool := z == "" || startsHash z

/-- Embedding of the AXFR loop over the lines of `zones.txt`: each
non-skipped zone is attempted; an exception or an empty transfer skips the
write; a successful non-empty transfer writes the zone's file.  Returns
(attempted zone names, written files as (zone, nodes)). -/
def zoneLoop (xfr : String → XfrOutcome) :
    List String → List String × List (String × List (String × String))
  | [] => ([], [])
  | line :: rest =>
    let zone_name := pyStrip line
    if skipLine zone_name then zoneLoop xfr rest
    else
      let res := zoneLoop xfr rest
      match xfr zone_name with
      | XfrOutcome.ok nodes =>
        if nodes.isEmpty then (zone_name :: res.1, res.2)
        else (zone_name :: res.1, (zone_name, nodes) :: res.2)
      | _ => (zone_name :: res.1, res.2)

/-- Embedding of the whole script: it exits with code 1 when the DNS
server name cannot be resolved (`socket.gaierror`) or `zones.txt` does not
exist, in that order; otherwise it runs the loop to completion. -/
def zone_transfer_script (resolveOk fileExists : Bool)
    (xfr : String → XfrOutcome) (lines : List String) :
    Except Nat (List String × List (String × List (String × String))) :=
  if ¬ resolveOk then Except.error 1
  else if ¬ fileExists then Except.error 1
  else Except.ok (zoneLoop xfr lines)

theorem zoneLoop_attempted (xfr : String → XfrOutcome) :
    ∀ lines, (zoneLoop xfr lines).1 =
      (lines.map pyStrip).filter (fun z => !skipLine z) := by
  intro lines
  induction lines with
  | nil => simp [zoneLoop]
  | cons line rest ih =>
    by_cases h : skipLine (pyStrip line)
    · simp [zoneLoop, h, ih]
    · cases hx : xfr (pyStrip line) with
      | ok nodes =>
        by_cases hn : nodes.isEmpty <;>
          simp [zoneLoop, h, hx, hn, ih]
      | formError => simp [zoneLoop, h, hx, ih]
      | timeout => simp [zoneLoop, h, hx, ih]
      | badResponse => simp [zoneLoop, h, hx, ih]
      | otherError => simp [zoneLoop, h, hx, ih]

theorem zoneLoop_written (xfr : String → XfrOutcome) :
    ∀ lines, (zoneLoop xfr lines).2 =
      (zoneLoop xfr lines).1.filterMap (fun z =>
        match xfr z with
        | XfrOutcome.ok nodes => if nodes.isEmpty then none else some (z, nodes)
        | _ => none) := by
  intro lines
  induction lines with
  | nil => simp [zoneLoop]
  | cons line rest ih =>
    by_cases h : skipLine (pyStrip line)
    · simp [zoneLoop, h, ih]
    · cases hx : xfr (pyStrip line) with
      | ok nodes =>
        by_cases hn : nodes = []
        · subst hn
          simp [zoneLoop, h, hx, ih, List.filterMap_cons]
        · simp [zoneLoop, h, hx, hn, ih, List.filterMap_cons]
      | formError => simp [zoneLoop, h, hx, ih, List.filterMap_cons]
      | timeout => simp [zoneLoop, h, hx, ih, List.filterMap_cons]
      | badResponse => simp [zoneLoop, h, hx, ih, List.filterMap_cons]
      | otherError => simp [zoneLoop, h, hx, ih, List.filterMap_cons]

theorem written_sound (xfr : String → XfrOutcome) (lines : List String)
    (z : String) (nodes' : List (String × String))
    (hmem : (z, nodes') ∈ (zoneLoop xfr lines).2) :
    xfr z = XfrOutcome.ok nodes' ∧ nodes' ≠ [] := by
  rw [zoneLoop_written] at hmem
  obtain ⟨z0, _, hz0⟩ := List.mem_filterMap.1 hmem
  cases hx : xfr z0 with
  | ok nodes =>
    rw [hx] at hz0
    by_cases hn : nodes = []
    · subst hn
      simp at hz0
    · simp [hn] at hz0
      obtain ⟨h1, h2⟩ := hz0
      subst h1
      subst h2
      exact ⟨hx, hn⟩
  | formError => rw [hx] at hz0; cases hz0
  | timeout => rw [hx] at hz0; cases hz0
  | badResponse => rw [hx] at hz0; cases hz0
  | otherError => rw [hx] at hz0; cases hz0

/-- C6: an AXFR failure (FormError, Timeout, BadResponse or any other
exception) or an empty transfer never aborts the run and never writes that
zone's file: the attempted list is exactly every non-empty non-comment
stripped line of zones.txt, whatever the transfer outcomes; a zone is
written exactly when its transfer succeeded with records; and the script
exits early exactly when the server does not resolve or zones.txt is
missing. -/
theorem C6_zone_transfer_robust (xfr : String → XfrOutcome)
    (lines : List String) :
    (∀ resolveOk fileExists,
      (zone_transfer_script resolveOk fileExists xfr lines).isOk =
        (resolveOk && fileExists)) ∧
    (zoneLoop xfr lines).1 =
      (lines.map pyStrip).filter (fun z => !skipLine z) ∧
    (∀ z nodes', (z, nodes') ∈ (zoneLoop xfr lines).2 →
      xfr z = XfrOutcome.ok nodes' ∧ nodes' ≠ []) ∧
    (∀ z, z ∈ (zoneLoop xfr lines).1 →
      (∀ nodes, xfr z = XfrOutcome.ok nodes → nodes = []) →
      ∀ nodes', (z, nodes') ∉ (zoneLoop xfr lines).2) := by
  refine ⟨?_, zoneLoop_attempted xfr lines,
    fun z nodes' hmem => written_sound xfr lines z nodes' hmem, ?_⟩
  · intro r f
    cases r <;> cases f <;> simp [zone_transfer_script, Except.isOk, Except.toBool]
  · intro z _ hempty nodes' hmem
    obtain ⟨hx, hne⟩ := written_sound xfr lines z nodes' hmem
    exact hne (hempty nodes' hx)

/-- Concrete transfer oracle for the C6 witness: one good zone, one empty
zone, everything else refused. -/
def xfrDemo : String → XfrOutcome := fun z =>
  if z = "good.zone" then XfrOutcome.ok [("a", "b")]
  else if z = "empty.zone" then XfrOutcome.ok []
  else XfrOutcome.formError

/-- Concrete zones.txt contents for the C6 witness. -/
def linesDemo : List String := [" good.zone ", "", "# comment", "empty.zone", "bad.zone"]

/-- Witness for C6 at a concrete run: the failing and empty zones are
still attempted but only the good zone is written. -/
theorem C6_witness :
    (zone_transfer_script true true xfrDemo linesDemo).isOk = (true && true) ∧
    (zoneLoop xfrDemo linesDemo).1 = ["good.zone", "empty.zone", "bad.zone"] ∧
    (xfrDemo "good.zone" = XfrOutcome.ok [("a", "b")] ∧
      [("a", "b")] ≠ ([] : List (String × String))) ∧
    ("bad.zone", [("a", "b")]) ∉ (zoneLoop xfrDemo linesDemo).2 := by
  have h := C6_zone_transfer_robust xfrDemo linesDemo
  refine ⟨h.1 true true, ?_, ?_, ?_⟩
  · rw [h.2.1]
    decide
  · exact h.2.2.1 "good.zone" [("a", "b")] (by decide)
  · refine h.2.2.2 "bad.zone" ?_ ?_ [("a", "b")]
    · rw [h.2.1]
      decide
    · intro nodes hne
      have hbad : xfrDemo "bad.zone" = XfrOutcome.formError := by decide
      rw [hbad] at hne
      cases hne

end ZoneTransfer

namespace Pdns

/-- Comment attached to a PowerDNS RRset. -/
structure PdnsComment where
  content : String
  account : String
deriving DecidableEq, Repr

/-- PowerDNS RRset as iterated by `pdns_zone.records` in
`netbox/powerdns/pdns_sync.py`. -/
structure PdnsRec where
  name : String
  rtype : String
  comments : List PdnsComment
deriving DecidableEq, Repr

/-- NetBox-DNS record of the zone. -/
structure NbRec where
  fqdn : String
  rtype : String
  value : String
deriving DecidableEq, Repr

/-- The `MANAGED_COMMENT` constant of the script. -/
def MANAGED_COMMENT : String := "rrset managed by netbox"

/-- The `MANAGED_ACCOUNT` constant of the script. -/
def MANAGED_ACCOUNT : String := "netbox_sync"

/-- The `SUPPORTED_TYPES` constant of the script. -/
def SUPPORTED_TYPES : List String :=
  ["A", "AAAA", "PTR", "CNAME", "SOA", "TXT", "DS", "DNAME", "MX", "SRV"]

/-- Embedding of `PdnsZoneSync.is_rrset_managed`: both constants are
non-empty (truthy), so the function scans the comments for one whose
content and account match. -/
def is_rrset_managed (r : PdnsRec) : Bool :=
  r.comments.any (fun c =>
    decide (c.content = MANAGED_COMMENT) && decide (c.account = MANAGED_ACCOUNT))

/-- The `(record['name'], record['type'])` key of a PowerDNS RRset. -/
def recKey (r : PdnsRec) : String × String := (r.name, r.rtype)

/-- The `(record.fqdn, record.type)` key of a NetBox record. -/
def nbKey (n : NbRec) : String × String := (n.fqdn, n.rtype)

/-- Python dict assignment `d[k] = v`: overwrite in place, append new. -/
def dictInsert (k : String × String) (v : PdnsRec)
    (d : List ((String × String) × PdnsRec)) :
    List ((String × String) × PdnsRec) :=
  if d.any (fun kv => decide (kv.1 = k)) then
    d.map (fun kv => if kv.1 = k then (k, v) else kv)
  else d ++ [(k, v)]

/-- Python `dict.pop(k)`: drop the entry with that key. -/
def dictRemove (k : String × String)
    (d : List ((String × String) × PdnsRec)) :
    List ((String × String) × PdnsRec) :=
  d.filter (fun kv => !(decide (kv.1 = k)))

/-- Python `set.add`. -/
def setAdd (k : String × String) (s : List (String × String)) :
    List (String × String) :=
  if k ∈ s then s else s ++ [k]

/-- Classification loop of `sync_zone` over `pdns_zone.records`:
unsupported types are skipped, unmanaged RRsets go into
`pdns_unmanaged_rrsets`, managed ones into `pdns_managed_rrsets`. -/
def classify (pdns : List PdnsRec) :
    List ((String × String) × PdnsRec) × List (String × String) :=
  pdns.foldl (fun st r =>
    if ¬ (r.rtype ∈ SUPPORTED_TYPES) then st
    else if ¬ is_rrset_managed r then (st.1, setAdd (recKey r) st.2)
    else (dictInsert (recKey r) r st.1, st.2)) ([], [])

/-- State of the loop over `zone.records.filter(type__in=SUPPORTED_TYPES)`:
the managed dict being popped, the keys of `netbox_records` entries, the
`to_add` dict (key to list of record values) and the keys warned about as
unmanaged collisions. -/
structure NbLoopState where
  managed : List ((String × String) × PdnsRec)
  nbkeys : List (String × String)
  to_add : List ((String × String) × List String)
  warnings : List (String × String)
deriving DecidableEq, Repr

/-- `to_add` update of the final `else` branch: append the value to an
existing rrset under construction, else start a new one. -/
def toAddInsert (k : String × String) (v : String)
    (ta : List ((String × String) × List String)) :
    List ((String × String) × List String) :=
  if ta.any (fun kv => decide (kv.1 = k)) then
    ta.map (fun kv => if kv.1 = k then (kv.1, kv.2 ++ [v]) else kv)
  else ta ++ [(k, [v])]

/-- One iteration of the NetBox record loop of `sync_zone`: an unmanaged
collision is warned and skipped; a managed match pops the dict entry into
`netbox_records`; a repeated key appends to the existing entry; anything
else builds a `to_add` rrset. -/
def nbStep (unmanaged : List (String × String)) (st : NbLoopState)
    (n : NbRec) : NbLoopState :=
  let k := nbKey n
  if k ∈ unmanaged then { st with warnings := st.warnings ++ [k] }
  else if st.managed.any (fun kv => decide (kv.1 = k)) then
    { st with managed := dictRemove k st.managed, nbkeys := st.nbkeys ++ [k] }
  else if k ∈ st.nbkeys then st
  else { st with to_add := toAddInsert k n.value st.to_add }

/-- Plan computed by `sync_zone` before the commit block. -/
structure SyncPlan where
  unmanaged : List (String × String)
  to_add : List ((String × String) × List String)
  to_update : List (String × String)
  to_delete : List (String × String)
  warnings : List (String × String)
deriving DecidableEq, Repr

/-- Embedding of the planning part of `PdnsZoneSync.sync_zone`: classify
the existing PowerDNS RRsets, walk the NetBox records, and mark the
managed RRsets left unmatched for deletion.  `to_update` is initialised
to `[]` and never appended to in the source. -/
def sync_zone_plan (pdns : List PdnsRec) (nbrecs : List NbRec) : SyncPlan :=
  let cl := classify pdns
  let nbF := nbrecs.filter (fun n => n.rtype ∈ SUPPORTED_TYPES)
  let st := nbF.foldl (nbStep cl.2) (NbLoopState.mk cl.1 [] [] [])
  SyncPlan.mk cl.2 st.to_add [] (st.managed.map (fun kv => kv.1)) st.warnings

/-- Supported-type test as a Bool predicate. -/
def supB (r : PdnsRec) : Bool := decide (r.rtype ∈ SUPPORTED_TYPES)

/-- The step function of `classify`. -/
def classifyStep (st : List ((String × String) × PdnsRec) ×
    List (String × String)) (r : PdnsRec) :
    List ((String × String) × PdnsRec) × List (String × String) :=
  if ¬ (r.rtype ∈ SUPPORTED_TYPES) then st
  else if ¬ is_rrset_managed r then (st.1, setAdd (recKey r) st.2)
  else (dictInsert (recKey r) r st.1, st.2)

theorem classify_eq_foldl (pdns : List PdnsRec) :
    classify pdns = pdns.foldl classifyStep ([], []) := rfl

theorem classify_go_managed (P : PdnsRec → Prop) :
    ∀ (l : List PdnsRec)
      (st : List ((String × String) × PdnsRec) × List (String × String)),
      (∀ r ∈ l, P r) →
      (∀ kv ∈ st.1, supB kv.2 = true ∧ is_rrset_managed kv.2 = true ∧
        recKey kv.2 = kv.1 ∧ P kv.2) →
      ∀ kv ∈ (l.foldl classifyStep st).1,
        supB kv.2 = true ∧ is_rrset_managed kv.2 = true ∧
          recKey kv.2 = kv.1 ∧ P kv.2 := by
  intro l
  induction l with
  | nil => intro st _ hst; exact hst
  | cons r rest ih =>
    intro st hl hst
    rw [List.foldl_cons]
    refine ih _ (fun r' hr' => hl r' (List.mem_cons_of_mem r hr')) ?_
    by_cases h1 : r.rtype ∈ SUPPORTED_TYPES
    · by_cases h2 : is_rrset_managed r
      · intro kv hkv
        simp only [classifyStep] at hkv
        rw [if_neg (by simp [h1]), if_neg (by simp [h2])] at hkv
        simp only [dictInsert] at hkv
        by_cases hany : st.1.any (fun kv => decide (kv.1 = recKey r))
        · rw [if_pos hany] at hkv
          obtain ⟨kv0, hkv0, hmap⟩ := List.mem_map.1 hkv
          by_cases heq : kv0.1 = recKey r
          · rw [if_pos heq] at hmap
            subst hmap
            exact ⟨by simp [supB, h1], h2, rfl, hl r (List.mem_cons_self r rest)⟩
          · rw [if_neg heq] at hmap
            subst hmap
            exact hst kv0 hkv0
        · rw [if_neg hany] at hkv
          rcases List.mem_append.1 hkv with hold | hnew
          · exact hst kv hold
          · simp only [List.mem_singleton] at hnew
            subst hnew
            exact ⟨by simp [supB, h1], h2, rfl, hl r (List.mem_cons_self r rest)⟩
      · intro kv hkv
        simp only [classifyStep] at hkv
        rw [if_neg (by simp [h1]), if_pos (by simp [h2])] at hkv
        exact hst kv hkv
    · intro kv hkv
      simp only [classifyStep] at hkv
      rw [if_pos (by simp [h1])] at hkv
      exact hst kv hkv

theorem classify_go_unmanaged (P : PdnsRec → Prop) :
    ∀ (l : List PdnsRec)
      (st : List ((String × String) × PdnsRec) × List (String × String)),
      (∀ r ∈ l, P r) →
      (∀ k ∈ st.2, ∃ r, P r ∧ supB r = true ∧ is_rrset_managed r = false ∧
        recKey r = k) →
      ∀ k ∈ (l.foldl classifyStep st).2,
        ∃ r, P r ∧ supB r = true ∧ is_rrset_managed r = false ∧
          recKey r = k := by
  intro l
  induction l with
  | nil => intro st _ hst; exact hst
  | cons r rest ih =>
    intro st hl hst
    rw [List.foldl_cons]
    refine ih _ (fun r' hr' => hl r' (List.mem_cons_of_mem r hr')) ?_
    by_cases h1 : r.rtype ∈ SUPPORTED_TYPES
    · by_cases h2 : is_rrset_managed r
      · intro k hk
        simp only [classifyStep] at hk
        rw [if_neg (by simp [h1]), if_neg (by simp [h2])] at hk
        exact hst k hk
      · intro k hk
        simp only [classifyStep] at hk
        rw [if_neg (by simp [h1]), if_pos (by simp [h2])] at hk
        simp only [setAdd] at hk
        by_cases hin : recKey r ∈ st.2
        · rw [if_pos hin] at hk
          exact hst k hk
        · rw [if_neg hin] at hk
          rcases List.mem_append.1 hk with hold | hnew
          · exact hst k hold
          · simp only [List.mem_singleton] at hnew
            subst hnew
            exact ⟨r, hl r (List.mem_cons_self r rest), by simp [supB, h1],
              by simp [h2], rfl⟩
    · intro k hk
      simp only [classifyStep] at hk
      rw [if_pos (by simp [h1])] at hk
      exact hst k hk

theorem nbLoop_managed (u : List (String × String)) :
    ∀ (l : List NbRec) (st : NbLoopState),
      (∀ kv ∈ st.managed, kv.1 ∉ u) →
      (l.foldl (nbStep u) st).managed =
        st.managed.filter (fun kv => decide (∀ n ∈ l, nbKey n ≠ kv.1)) := by
  intro l
  induction l with
  | nil =>
    intro st _
    refine (List.filter_eq_self.2 ?_).symm
    intro kv _
    simp
  | cons n rest ih =>
    intro st hm
    rw [List.foldl_cons]
    by_cases h1 : nbKey n ∈ u
    · have hstep : (nbStep u st n).managed = st.managed := by
        simp [nbStep, h1]
      have hm' : ∀ kv ∈ (nbStep u st n).managed, kv.1 ∉ u := by
        rw [hstep]; exact hm
      rw [ih (nbStep u st n) hm', hstep]
      refine List.filter_congr ?_
      intro kv hkv
      have hne : nbKey n ≠ kv.1 := fun he => (hm kv hkv) (he ▸ h1)
      rw [decide_eq_decide]
      constructor
      · intro hall n' hn'
        rcases List.mem_cons.1 hn' with he | hn'
        · rw [he]; exact hne
        · exact hall n' hn'
      · intro hall n' hn'
        exact hall n' (List.mem_cons_of_mem n hn')
    · by_cases h2 : st.managed.any (fun kv => decide (kv.1 = nbKey n))
      · have hstep : (nbStep u st n).managed = dictRemove (nbKey n) st.managed := by
          simp [nbStep, h1, h2]
        have hm' : ∀ kv ∈ (nbStep u st n).managed, kv.1 ∉ u := by
          rw [hstep]
          intro kv hkv
          exact hm kv (List.mem_of_mem_filter hkv)
        rw [ih (nbStep u st n) hm', hstep]
        simp only [dictRemove]
        rw [List.filter_filter]
        refine List.filter_congr ?_
        intro kv _
        cases hd : decide (kv.1 = nbKey n) with
        | true =>
          have heq : kv.1 = nbKey n := of_decide_eq_true hd
          rw [Bool.not_true, Bool.and_false]
          refine (decide_eq_false ?_).symm
          intro hall
          exact hall n (List.mem_cons_self n rest) heq.symm
        | false =>
          have hne : ¬ (kv.1 = nbKey n) := of_decide_eq_false hd
          rw [Bool.not_false, Bool.and_true]
          rw [decide_eq_decide]
          constructor
          · intro hall n' hn'
            rcases List.mem_cons.1 hn' with he | hn'
            · rw [he]; exact fun h => hne h.symm
            · exact hall n' hn'
          · intro hall n' hn'
            exact hall n' (List.mem_cons_of_mem n hn')
      · have hmne : ∀ kv ∈ st.managed, nbKey n ≠ kv.1 := by
          intro kv hkv he
          exact h2 (List.any_eq_true.2 ⟨kv, hkv, by simp [he.symm]⟩)
        have hstep : (nbStep u st n).managed = st.managed := by
          by_cases h3 : nbKey n ∈ st.nbkeys <;> simp [nbStep, h1, h2, h3]
        have hm' : ∀ kv ∈ (nbStep u st n).managed, kv.1 ∉ u := by
          rw [hstep]; exact hm
        rw [ih (nbStep u st n) hm', hstep]
        refine List.filter_congr ?_
        intro kv hkv
        rw [decide_eq_decide]
        constructor
        · intro hall n' hn'
          rcases List.mem_cons.1 hn' with he | hn'
          · rw [he]; exact hmne kv hkv
          · exact hall n' hn'
        · intro hall n' hn'
          exact hall n' (List.mem_cons_of_mem n hn')

theorem nbLoop_toadd (u : List (String × String)) :
    ∀ (l : List NbRec) (st : NbLoopState),
      (∀ kv ∈ st.to_add, kv.1 ∉ u) →
      ∀ kv ∈ (l.foldl (nbStep u) st).to_add, kv.1 ∉ u := by
  intro l
  induction l with
  | nil => intro st hst; exact hst
  | cons n rest ih =>
    intro st hst
    rw [List.foldl_cons]
    refine ih _ ?_
    by_cases h1 : nbKey n ∈ u
    · have hstep : (nbStep u st n).to_add = st.to_add := by
        simp [nbStep, h1]
      rw [hstep]; exact hst
    · by_cases h2 : st.managed.any (fun kv => decide (kv.1 = nbKey n))
      · have hstep : (nbStep u st n).to_add = st.to_add := by
          simp [nbStep, h1, h2]
        rw [hstep]; exact hst
      · by_cases h3 : nbKey n ∈ st.nbkeys
        · have hstep : (nbStep u st n).to_add = st.to_add := by
            simp [nbStep, h1, h2, h3]
          rw [hstep]; exact hst
        · have hstep : (nbStep u st n).to_add =
              toAddInsert (nbKey n) n.value st.to_add := by
            simp [nbStep, h1, h2, h3]
          rw [hstep]
          intro kv hkv
          simp only [toAddInsert] at hkv
          by_cases hany : st.to_add.any (fun kv => decide (kv.1 = nbKey n))
          · rw [if_pos hany] at hkv
            obtain ⟨kv0, hkv0, hmap⟩ := List.mem_map.1 hkv
            by_cases heq : kv0.1 = nbKey n
            · rw [if_pos heq] at hmap
              subst hmap
              exact hst kv0 hkv0
            · rw [if_neg heq] at hmap
              subst hmap
              exact hst kv0 hkv0
          · rw [if_neg hany] at hkv
            rcases List.mem_append.1 hkv with hold | hnew
            · exact hst kv hold
            · simp only [List.mem_singleton] at hnew
              subst hnew
              exact h1

/-- C9: `sync_zone` never updates anything (`to_update` stays empty); every
RRset placed on `to_delete` is a supported, netbox-managed RRset of the
PowerDNS zone with no NetBox record of the same (name, type); an RRset
without the managed comment is never placed on `to_delete`; and a NetBox
record whose (fqdn, type) collides with an unmanaged RRset contributes
nothing to `to_add`.  Hypothesis: the PowerDNS zone has at most one RRset
per (name, type), which is the PowerDNS data model. -/
theorem C9_pdns_unmanaged_frame (pdns : List PdnsRec) (nbrecs : List NbRec)
    (hnodup : ((pdns.filter supB).map recKey).Nodup) :
    (sync_zone_plan pdns nbrecs).to_update = [] ∧
    (∀ k ∈ (sync_zone_plan pdns nbrecs).to_delete,
      ∃ r ∈ pdns, supB r = true ∧ is_rrset_managed r = true ∧ recKey r = k ∧
        ∀ n ∈ nbrecs, n.rtype ∈ SUPPORTED_TYPES → nbKey n ≠ k) ∧
    (∀ r ∈ pdns, supB r = true → is_rrset_managed r = false →
      recKey r ∉ (sync_zone_plan pdns nbrecs).to_delete) ∧
    (∀ n ∈ nbrecs, n.rtype ∈ SUPPORTED_TYPES →
      nbKey n ∈ (sync_zone_plan pdns nbrecs).unmanaged →
      ∀ vs, (nbKey n, vs) ∉ (sync_zone_plan pdns nbrecs).to_add) := by
  have hM : ∀ kv ∈ (classify pdns).1, supB kv.2 = true ∧
      is_rrset_managed kv.2 = true ∧ recKey kv.2 = kv.1 ∧ kv.2 ∈ pdns := by
    rw [classify_eq_foldl]
    exact classify_go_managed (· ∈ pdns) pdns ([], [])
      (fun r hr => hr) (by intro kv hkv; cases hkv)
  have hU : ∀ k ∈ (classify pdns).2, ∃ r, r ∈ pdns ∧ supB r = true ∧
      is_rrset_managed r = false ∧ recKey r = k := by
    rw [classify_eq_foldl]
    exact classify_go_unmanaged (· ∈ pdns) pdns ([], [])
      (fun r hr => hr) (by intro k hk; cases hk)
  have hinj : ∀ r1 ∈ pdns, ∀ r2 ∈ pdns, supB r1 = true → supB r2 = true →
      recKey r1 = recKey r2 → r1 = r2 := by
    intro r1 h1 r2 h2 hs1 hs2 hk
    exact List.inj_on_of_nodup_map hnodup
      (List.mem_filter.2 ⟨h1, hs1⟩) (List.mem_filter.2 ⟨h2, hs2⟩) hk
  have hdisj : ∀ kv ∈ (classify pdns).1, kv.1 ∉ (classify pdns).2 := by
    intro kv hkv hmem
    obtain ⟨hs, hman, hkey, hin⟩ := hM kv hkv
    obtain ⟨r2, hr2, hs2, hunm, hkey2⟩ := hU kv.1 hmem
    have : kv.2 = r2 := hinj kv.2 hin r2 hr2 hs hs2 (by rw [hkey, hkey2])
    rw [this] at hman
    rw [hman] at hunm
    cases hunm
  have hfinal := nbLoop_managed (classify pdns).2
    (nbrecs.filter (fun m => m.rtype ∈ SUPPORTED_TYPES))
    (NbLoopState.mk (classify pdns).1 [] [] []) hdisj
  refine ⟨rfl, ?_, ?_, ?_⟩
  · intro k hk
    simp only [sync_zone_plan] at hk
    rw [hfinal] at hk
    obtain ⟨kv, hkv, hkeq⟩ := List.mem_map.1 hk
    have hkv2 := List.mem_filter.1 hkv
    obtain ⟨hs, hman, hkey, hin⟩ := hM kv hkv2.1
    subst hkeq
    refine ⟨kv.2, hin, hs, hman, hkey, ?_⟩
    intro n hn hsn
    have := of_decide_eq_true hkv2.2
    exact this n (List.mem_filter.2 ⟨hn, by simpa using hsn⟩)
  · intro r hr hs hunm hmem
    simp only [sync_zone_plan] at hmem
    rw [hfinal] at hmem
    obtain ⟨kv, hkv, hkeq⟩ := List.mem_map.1 hmem
    have hkv2 := List.mem_filter.1 hkv
    obtain ⟨hs2, hman, hkey, hin⟩ := hM kv hkv2.1
    have : kv.2 = r := hinj kv.2 hin r hr hs2 hs (by rw [hkey, hkeq])
    rw [this] at hman
    rw [hman] at hunm
    cases hunm
  · intro n hn hsn hmem vs hadd
    simp only [sync_zone_plan] at hadd hmem
    have hta := nbLoop_toadd (classify pdns).2
      (nbrecs.filter (fun n => n.rtype ∈ SUPPORTED_TYPES))
      (NbLoopState.mk (classify pdns).1 [] [] [])
      (by intro kv hkv; cases hkv) (nbKey n, vs) hadd
    exact hta hmem

/-- Concrete PowerDNS zone for the C9 witness: one managed RRset with no
NetBox record (deleted), one unmanaged RRset colliding with a NetBox
record (warned), one unsupported type (ignored). -/
def pdnsDemo : List PdnsRec :=
  [PdnsRec.mk "www.zone." "A" [PdnsComment.mk MANAGED_COMMENT MANAGED_ACCOUNT],
   PdnsRec.mk "mail.zone." "A" [],
   PdnsRec.mk "x.zone." "NSEC" []]

/-- Concrete NetBox records for the C9 witness. -/
def nbDemo : List NbRec :=
  [NbRec.mk "mail.zone." "A" "1.2.3.4", NbRec.mk "new.zone." "A" "5.6.7.8"]

/-- Witness for C9 at a concrete zone: the unmanaged collision is neither
deleted nor re-created, and only the managed orphan is deleted. -/
theorem C9_witness :
    ((pdnsDemo.filter supB).map recKey).Nodup ∧
    (sync_zone_plan pdnsDemo nbDemo).to_update = [] ∧
    (∃ r ∈ pdnsDemo, supB r = true ∧ is_rrset_managed r = true ∧
      recKey r = ("www.zone.", "A") ∧
      ∀ n ∈ nbDemo, n.rtype ∈ SUPPORTED_TYPES → nbKey n ≠ ("www.zone.", "A")) ∧
    recKey (PdnsRec.mk "mail.zone." "A" []) ∉
      (sync_zone_plan pdnsDemo nbDemo).to_delete ∧
    (("mail.zone.", "A"), ["1.2.3.4"]) ∉ (sync_zone_plan pdnsDemo nbDemo).to_add := by
  have h := C9_pdns_unmanaged_frame pdnsDemo nbDemo (by decide)
  refine ⟨by decide, h.1, ?_, ?_, ?_⟩
  · exact h.2.1 ("www.zone.", "A") (by decide)
  · exact h.2.2.1 (PdnsRec.mk "mail.zone." "A" []) (by decide) (by decide)
      (by decide)
  · exact h.2.2.2 (NbRec.mk "mail.zone." "A" "1.2.3.4") (by decide)
      (by decide) (by decide) ["1.2.3.4"]

end Pdns

namespace ZoneParse

/-- Strings are modelled as their character lists so that the Python
string operations evaluate by kernel reduction and admit induction. -/
abbrev Str := List Char

/-- Python `str.lower()` restricted to ASCII, the alphabet of zone data. -/
def lowerChar : Char → Char
  | 'A' => 'a'
  | 'B' => 'b'
  | 'C' => 'c'
  | 'D' => 'd'
  | 'E' => 'e'
  | 'F' => 'f'
  | 'G' => 'g'
  | 'H' => 'h'
  | 'I' => 'i'
  | 'J' => 'j'
  | 'K' => 'k'
  | 'L' => 'l'
  | 'M' => 'm'
  | 'N' => 'n'
  | 'O' => 'o'
  | 'P' => 'p'
  | 'Q' => 'q'
  | 'R' => 'r'
  | 'S' => 's'
  | 'T' => 't'
  | 'U' => 'u'
  | 'V' => 'v'
  | 'W' => 'w'
  | 'X' => 'x'
  | 'Y' => 'y'
  | 'Z' => 'z'
  | c => c

/-- Python `str.upper()` restricted to ASCII. -/
def upperChar : Char → Char
  | 'a' => 'A'
  | 'b' => 'B'
  | 'c' => 'C'
  | 'd' => 'D'
  | 'e' => 'E'
  | 'f' => 'F'
  | 'g' => 'G'
  | 'h' => 'H'
  | 'i' => 'I'
  | 'j' => 'J'
  | 'k' => 'K'
  | 'l' => 'L'
  | 'm' => 'M'
  | 'n' => 'N'
  | 'o' => 'O'
  | 'p' => 'P'
  | 'q' => 'Q'
  | 'r' => 'R'
  | 's' => 'S'
  | 't' => 'T'
  | 'u' => 'U'
  | 'v' => 'V'
  | 'w' => 'W'
  | 'x' => 'X'
  | 'y' => 'Y'
  | 'z' => 'Z'
  | c => c

/-- Python `s.lower()`. -/
def pyLower (s : Str) : Str := s.map lowerChar

/-- Python `s.upper()`. -/
def pyUpper (s : Str) : Str := s.map upperChar

/-- Python `s.strip()` (ASCII whitespace). -/
def stripWs (s : Str) : Str :=
  ((s.dropWhile Char.isWhitespace).reverse.dropWhile Char.isWhitespace).reverse

/-- Python `s.rstrip('.')`. -/
def rstripDot (s : Str) : Str :=
  (s.reverse.dropWhile (fun c => c = '.')).reverse

/-- The `TYPE_SET` constant of `update_managed_unmanaged_records.py`. -/
def TYPE_SET : List Str := [['A'], ['A', 'A', 'A', 'A'], ['P', 'T', 'R']]

/-- The `CLASS_SET` constant. -/
def CLASS_SET : List Str := [['I', 'N'], ['C', 'H'], ['H', 'S']]

/-- Embedding of `is_ttl(tok)`: Python `tok.isdigit()` (non-empty, all
digits). -/
def is_ttl (tok : Str) : Bool := !tok.isEmpty && tok.all Char.isDigit

/-- Embedding of `is_class(tok)`: `tok.upper() in CLASS_SET`. -/
def is_class (tok : Str) : Bool := decide (pyUpper tok ∈ CLASS_SET)

/-- Embedding of `is_type(tok)`: `tok.upper() in TYPE_SET`. -/
def is_type (tok : Str) : Bool := decide (pyUpper tok ∈ TYPE_SET)

/-- Embedding of `fqdn_from_owner(owner, origin)`. -/
def fqdn_from_owner (owner origin : Str) : Str :=
  let owner := stripWs owner
  if owner = ['@'] then rstripDot origin
  else if owner.getLast? = some '.' then owner.dropLast
  else owner ++ '.' :: rstripDot origin

/-- Index step of `parse_rr_tokens` for the optional TTL token:
`if i < len(tokens) and is_ttl(tokens[i]): i += 1`. -/
def parseTTL (tokens : List Str) (i : Nat) : Nat :=
  match tokens[i]? with
  | some t => if is_ttl t then i + 1 else i
  | none => i

/-- Index step for the optional CLASS token:
`if i < len(tokens) and is_class(tokens[i].upper()): i += 1`. -/
def parseClass (tokens : List Str) (i : Nat) : Nat :=
  match tokens[i]? with
  | some t => if is_class (pyUpper t) then i + 1 else i
  | none => i

/-- Final phase of `parse_rr_tokens`: TYPE at position `i`, RDATA at
`i + 1`, owner expansion against the origin.  `None`/empty owner falls
back to the current owner and then to `'@'`. -/
def parseFinish (tokens : List Str) (i : Nat) (owner : Option Str)
    (current_owner origin : Str) : Option (Str × Str × Str × Str) :=
  match tokens[i]? with
  | some t =>
    if is_type (pyUpper t) then
      match tokens[i + 1]? with
      | some rdata =>
        let owner_text := match owner with | some o => o | none => current_owner
        let owner_text := if owner_text = [] then ['@'] else owner_text
        some (fqdn_from_owner owner_text origin, pyUpper t, rdata, current_owner)
      | none => none
    else none
  | none => none

/-- Embedding of `parse_rr_tokens(tokens, current_owner, origin)`: the
source walks an index `i` over the token list; the first token is taken
as the owner when it is neither TTL nor class nor type, then the optional
TTL and class are skipped, and TYPE/RDATA are read. -/
def parse_rr_tokens (tokens : List Str) (current_owner origin : Str) :
    Option (Str × Str × Str × Str) :=
  let s1 : Option Str × Str × Nat :=
    match tokens[0]? with
    | some t0 =>
      if !is_ttl t0 && !is_class (pyUpper t0) && !is_type (pyUpper t0) then
        (some t0, t0, 1)
      else (none, current_owner, 0)
    | none => (none, current_owner, 0)
  parseFinish tokens (parseClass tokens (parseTTL tokens s1.2.2)) s1.1 s1.2.1
    origin

/-- Specification: drop a leading TTL token. -/
def ttlSkip (l : List Str) : List Str :=
  match l with
  | t :: r => if is_ttl t then r else l
  | [] => []

/-- Specification: drop a leading CLASS token. -/
def classSkip (l : List Str) : List Str :=
  match l with
  | t :: r => if is_class (pyUpper t) then r else l
  | [] => []

/-- Specification of the tail [TTL] [CLASS] TYPE RDATA: after skipping
the optional TTL and class, the list must start with a type token and an
rdata token; the owner (inherited when omitted, defaulting to `'@'`) is
expanded against the origin. -/
def specFinish (ownerOpt : Option Str) (cur : Str) (l : List Str)
    (origin : Str) : Option (Str × Str × Str × Str) :=
  match l with
  | ty :: rdata :: _ =>
    if is_type (pyUpper ty) then
      let owner_text := ownerOpt.getD cur
      let owner_text := if owner_text = [] then ['@'] else owner_text
      some (fqdn_from_owner owner_text origin, pyUpper ty, rdata, cur)
    else none
  | _ => none

/-- Specification of `[owner] [TTL] [CLASS] TYPE RDATA` written from the
claim: the first token is the owner exactly when it is not all-digits,
not a class and not a type (case-insensitively); an omitted owner
inherits the current owner. -/
def specParseRR (tokens : List Str) (current_owner origin : Str) :
    Option (Str × Str × Str × Str) :=
  match tokens with
  | t0 :: rest =>
    if !is_ttl t0 && !is_class (pyUpper t0) && !is_type (pyUpper t0) then
      specFinish (some t0) t0 (classSkip (ttlSkip rest)) origin
    else
      specFinish none current_owner (classSkip (ttlSkip (t0 :: rest))) origin
  | [] => none

theorem drop_parseTTL (tokens : List Str) (i : Nat) :
    tokens.drop (parseTTL tokens i) = ttlSkip (tokens.drop i) := by
  unfold parseTTL
  cases hd : tokens[i]? with
  | none =>
    have hlen : tokens.length ≤ i := by
      by_contra hlt
      rw [List.getElem?_eq_getElem (by omega)] at hd
      cases hd
    have hnil : tokens.drop i = [] := List.drop_eq_nil_iff.2 hlen
    rw [hnil]
    rfl
  | some t =>
    have hlt : i < tokens.length := by
      by_contra hge
      rw [List.getElem?_eq_none (by omega)] at hd
      cases hd
    have hdc : tokens.drop i = t :: tokens.drop (i + 1) := by
      rw [List.drop_eq_getElem_cons hlt]
      congr 1
      have := List.getElem?_eq_getElem hlt
      rw [hd] at this
      exact (Option.some.injEq _ _ ▸ this).symm
    rw [hdc]
    by_cases ht : is_ttl t
    · simp [ttlSkip, ht]
    · simp [ttlSkip, ht, hdc.symm]

theorem drop_parseClass (tokens : List Str) (i : Nat) :
    tokens.drop (parseClass tokens i) = classSkip (tokens.drop i) := by
  unfold parseClass
  cases hd : tokens[i]? with
  | none =>
    have hlen : tokens.length ≤ i := by
      by_contra hlt
      rw [List.getElem?_eq_getElem (by omega)] at hd
      cases hd
    have hnil : tokens.drop i = [] := List.drop_eq_nil_iff.2 hlen
    rw [hnil]
    rfl
  | some t =>
    have hlt : i < tokens.length := by
      by_contra hge
      rw [List.getElem?_eq_none (by omega)] at hd
      cases hd
    have hdc : tokens.drop i = t :: tokens.drop (i + 1) := by
      rw [List.drop_eq_getElem_cons hlt]
      congr 1
      have := List.getElem?_eq_getElem hlt
      rw [hd] at this
      exact (Option.some.injEq _ _ ▸ this).symm
    rw [hdc]
    by_cases hc : is_class (pyUpper t)
    · simp [classSkip, hc]
    · simp [classSkip, hc, hdc.symm]

theorem parseFinish_eq (tokens : List Str) (i : Nat) (owner : Option Str)
    (cur origin : Str) :
    parseFinish tokens i owner cur origin =
      specFinish owner cur (tokens.drop i) origin := by
  unfold parseFinish
  cases hd : tokens[i]? with
  | none =>
    have hlen : tokens.length ≤ i := by
      by_contra hlt
      rw [List.getElem?_eq_getElem (by omega)] at hd
      cases hd
    have hnil : tokens.drop i = [] := List.drop_eq_nil_iff.2 hlen
    rw [hnil]
    rfl
  | some t =>
    have hlt : i < tokens.length := by
      by_contra hge
      rw [List.getElem?_eq_none (by omega)] at hd
      cases hd
    have hdc : tokens.drop i = t :: tokens.drop (i + 1) := by
      rw [List.drop_eq_getElem_cons hlt]
      congr 1
      have h2 := List.getElem?_eq_getElem hlt
      rw [hd] at h2
      exact (Option.some.injEq _ _ ▸ h2).symm
    rw [hdc]
    by_cases hty : is_type (pyUpper t) = true
    · cases hd2 : tokens[i + 1]? with
      | none =>
        have hlen2 : tokens.length ≤ i + 1 := by
          by_contra hlt2
          rw [List.getElem?_eq_getElem (by omega)] at hd2
          cases hd2
        have hnil2 : tokens.drop (i + 1) = [] := List.drop_eq_nil_iff.2 hlen2
        rw [hnil2]
        simp [specFinish, hty]
      | some rdata =>
        have hlt2 : i + 1 < tokens.length := by
          by_contra hge2
          rw [List.getElem?_eq_none (by omega)] at hd2
          cases hd2
        have hdc2 : tokens.drop (i + 1) = rdata :: tokens.drop (i + 2) := by
          rw [List.drop_eq_getElem_cons hlt2]
          congr 1
          have h2 := List.getElem?_eq_getElem hlt2
          rw [hd2] at h2
          exact (Option.some.injEq _ _ ▸ h2).symm
        rw [hdc2]
        cases owner with
        | none => simp [specFinish, hty]
        | some o => simp [specFinish, hty]
    · cases hrest : tokens.drop (i + 1) with
      | nil => simp [specFinish, hty]
      | cons rd r2 => simp [specFinish, hty]

/-- C7: `parse_rr_tokens` equals, on every input, the grammar
`[owner] [TTL] [CLASS] TYPE RDATA` stated from the claim: the first token
is taken as the owner exactly when it is not all-digits, not a class in
IN/CH/HS, and not a type in A/AAAA/PTR; an omitted owner is inherited
from the current owner (defaulting to `'@'`); `None` is returned exactly
when the TYPE token is absent from its expected position or the RDATA
token is missing; otherwise the owner is expanded to an FQDN against the
origin and returned with the type, rdata, and the updated current
owner. -/
theorem C7_parse_rr_tokens_spec (tokens : List Str)
    (current_owner origin : Str) :
    parse_rr_tokens tokens current_owner origin =
      specParseRR tokens current_owner origin := by
  cases tokens with
  | nil => rfl
  | cons t0 rest =>
    unfold parse_rr_tokens specParseRR
    simp only [List.getElem?_cons_zero]
    by_cases h0 : (!is_ttl t0 && !is_class (pyUpper t0) && !is_type (pyUpper t0)) = true
    · rw [if_pos h0, if_pos h0]
      rw [parseFinish_eq, drop_parseClass, drop_parseTTL]
      simp
    · rw [if_neg h0, if_neg h0]
      rw [parseFinish_eq, drop_parseClass, drop_parseTTL]
      simp

/-- Python `left.split('.')` (single-character separator, keeps empty
pieces). -/
def splitOnChar (c : Char) : List Char → List (List Char)
  | [] => [[]]
  | a :: rest =>
    match splitOnChar c rest with
    | [] => []
    | h :: t => if a = c then [] :: h :: t else (a :: h) :: t

/-- Scan for the rightmost position at or below `i` where `sep` occurs. -/
def rfindAux (sep s : List Char) : Nat → Option Nat
  | 0 => if sep.isPrefixOf s then some 0 else none
  | i + 1 =>
    if sep.isPrefixOf (s.drop (i + 1)) then some (i + 1) else rfindAux sep s i

/-- Python `s.rsplit(sep, 1)[0]`: the part before the last occurrence of
`sep`, or the whole string when `sep` does not occur. -/
def rsplitBefore (sep s : List Char) : List Char :=
  match rfindAux sep s s.length with
  | some i => s.take i
  | none => s

/-- CPython rejects `__` inside an int literal: no two adjacent
underscores. -/
def noDoubleUnderscore : List Char → Bool
  | [] => true
  | [_] => true
  | a :: b :: rest =>
    !(decide (a = '_') && decide (b = '_')) && noDoubleUnderscore (b :: rest)

/-- Digit run with single underscores between digits, as CPython accepts
in a decimal int literal. -/
def digitRunOk (l : List Char) : Bool :=
  !l.isEmpty && l.head?.elim false Char.isDigit &&
    l.getLast?.elim false Char.isDigit &&
    l.all (fun c => c.isDigit || c = '_') && noDoubleUnderscore l

/-- Value of an underscore-free decimal digit run. -/
def digitsVal (l : List Char) : Nat :=
  l.foldl (fun a c => a * 10 + (c.toNat - 48)) 0

/-- Python `int(s)` on ASCII input: strip whitespace, optional sign,
digits with single underscores between them; `None` models the
`ValueError`. -/
def pyInt (s : List Char) : Option Int :=
  let t := stripWs s
  match t with
  | '+' :: rest =>
    if digitRunOk rest then
      some (Int.ofNat (digitsVal (rest.filter (fun c => decide (c ≠ '_')))))
    else none
  | '-' :: rest =>
    if digitRunOk rest then
      some (-(Int.ofNat (digitsVal (rest.filter (fun c => decide (c ≠ '_'))))))
    else none
  | _ =>
    if digitRunOk t then
      some (Int.ofNat (digitsVal (t.filter (fun c => decide (c ≠ '_')))))
    else none

/-- ASCII hex digit. -/
def isHexDigitChar (c : Char) : Bool :=
  c.isDigit || ('a' ≤ c && c ≤ 'f') || ('A' ≤ c && c ≤ 'F')

/-- Value of one hex digit. -/
def hexVal (c : Char) : Nat :=
  if c.isDigit then c.toNat - 48
  else if 'a' ≤ c && c ≤ 'f' then c.toNat - 97 + 10
  else c.toNat - 65 + 10

/-- Hex digit run with single underscores between digits. -/
def hexRunOk (l : List Char) : Bool :=
  !l.isEmpty && l.head?.elim false isHexDigitChar &&
    l.getLast?.elim false isHexDigitChar &&
    l.all (fun c => isHexDigitChar c || c = '_') && noDoubleUnderscore l

/-- Value of an underscore-free hex digit run. -/
def hexDigitsVal (l : List Char) : Nat :=
  l.foldl (fun a c => a * 16 + hexVal c) 0

/-- Unsigned part of Python `int(s, 16)`: an optional `0x`/`0X` prefix
(an underscore may follow it), then a hex digit run. -/
def pyIntHexCore (t : List Char) : Option Nat :=
  match t with
  | '0' :: x :: rest =>
    if x = 'x' ∨ x = 'X' then
      match rest with
      | '_' :: rest2 =>
        if hexRunOk rest2 then
          some (hexDigitsVal (rest2.filter (fun c => decide (c ≠ '_'))))
        else none
      | _ =>
        if hexRunOk rest then
          some (hexDigitsVal (rest.filter (fun c => decide (c ≠ '_'))))
        else none
    else
      if hexRunOk t then
        some (hexDigitsVal (t.filter (fun c => decide (c ≠ '_'))))
      else none
  | _ =>
    if hexRunOk t then
      some (hexDigitsVal (t.filter (fun c => decide (c ≠ '_'))))
    else none

/-- Python `int(s, 16)` on ASCII input. -/
def pyIntHex (s : List Char) : Option Int :=
  let t := stripWs s
  match t with
  | '+' :: rest => (pyIntHexCore rest).map Int.ofNat
  | '-' :: rest => (pyIntHexCore rest).map (fun n => -(Int.ofNat n))
  | _ => (pyIntHexCore t).map Int.ofNat

/-- Python `str(int)`. -/
def intToDigits (v : Int) : List Char :=
  if v < 0 then '-' :: Nat.toDigits 10 v.natAbs else Nat.toDigits 10 v.toNat

/-- The eight 16-bit groups of a 128-bit value, most significant first. -/
def hextets (v : Nat) : List Nat :=
  (List.range 8).map (fun i => v / 65536 ^ (7 - i) % 65536)

/-- CPython `_compress_hextets` best-run search: start and length of the
first strictly-longest run of zero groups. -/
def bestZeroRun (hx : List Nat) : Option Nat × Nat :=
  (hx.foldl
    (fun (st : (Option Nat × Nat) × (Option Nat × Nat) × Nat) h =>
      let best := st.1
      let curr := st.2.1
      let idx := st.2.2
      if h = 0 then
        let cs := match curr.1 with | none => some idx | some c0 => some c0
        let cl := curr.2 + 1
        if cl > best.2 then ((cs, cl), (cs, cl), idx + 1)
        else (best, (cs, cl), idx + 1)
      else (best, (none, 0), idx + 1))
    ((none, 0), (none, 0), 0)).1

/-- Modelled from CPython `ipaddress.IPv6Address.__str__` (the library
call `str(IPv6Address(val))` in the source): eight lowercase hex groups,
the first longest run (length ≥ 2) of zero groups compressed to `::`. -/
def ipv6Str (v : Nat) : List Char :=
  let hx := hextets v
  let parts := hx.map (fun n => Nat.toDigits 16 n)
  let br := bestZeroRun hx
  match br.1 with
  | some bs =>
    if 1 < br.2 then
      List.intercalate [':']
        ((if bs = 0 then [([] : List Char)] else []) ++ parts.take bs ++
          [[]] ++ parts.drop (bs + br.2) ++
          (if bs + br.2 = 8 then [([] : List Char)] else []))
    else List.intercalate [':'] parts
  | none => List.intercalate [':'] parts

/-- The suffix `'in-addr.arpa'` tested by `endswith`. -/
def inAddrSuffix : Str := "in-addr.arpa".data

/-- The separator `'.in-addr.arpa'` used by `rsplit`. -/
def sepInAddr : Str := ".in-addr.arpa".data

/-- The suffix `'ip6.arpa'`. -/
def ip6Suffix : Str := "ip6.arpa".data

/-- The separator `'.ip6.arpa'`. -/
def sepIp6 : Str := ".ip6.arpa".data

/-- IPv4 branch of `reverse_owner_to_ip`: keep the last four non-empty
labels before `.in-addr.arpa`, parse them as ints (`ValueError` gives
`None`), require 0..255 each, and join them reversed. -/
def v4Branch (name : Str) : Option Str :=
  let left := rsplitBefore sepInAddr name
  let labels := (splitOnChar '.' left).filter (fun l => !l.isEmpty)
  if labels.length < 4 then none
  else
    let octets := labels.drop (labels.length - 4)
    match octets.mapM pyInt with
    | none => none
    | some vals =>
      if vals.any (fun v => decide (¬ (0 ≤ v ∧ v ≤ 255))) then none
      else some (List.intercalate ['.'] ((vals.map intToDigits).reverse))

/-- IPv6 branch: exactly 32 non-empty nibble labels, joined reversed and
parsed as hex (`ValueError` gives `None`); `IPv6Address(val)` sits
outside the `try`, so a value out of the 128-bit range raises
(`Except.error`). -/
def ip6Branch (name : Str) : Except Unit (Option Str) :=
  let left := rsplitBefore sepIp6 name
  let nibbles := (splitOnChar '.' left).filter (fun l => !l.isEmpty)
  if nibbles.length ≠ 32 then Except.ok none
  else
    match pyIntHex (List.flatten nibbles.reverse) with
    | none => Except.ok none
    | some val =>
      if val < 0 ∨ (2 : Int) ^ 128 ≤ val then Except.error ()
      else Except.ok (some (ipv6Str val.toNat))

/-- Embedding of `reverse_owner_to_ip(owner_fqdn)`: strip trailing dots,
lowercase, then dispatch on the two reverse-zone suffixes. -/
def reverse_owner_to_ip (owner_fqdn : Str) : Except Unit (Option Str) :=
  let name := pyLower (rstripDot owner_fqdn)
  if inAddrSuffix.isSuffixOf name then Except.ok (v4Branch name)
  else if ip6Suffix.isSuffixOf name then ip6Branch name
  else Except.ok none

/-- Specification-side dotted join of labels. -/
def joinSep (c : Char) : List Str → Str
  | [] => []
  | [l] => l
  | l :: l2 :: rest => l ++ c :: joinSep c (l2 :: rest)

theorem splitOnChar_ne_nil (c : Char) (l : List Char) :
    splitOnChar c l ≠ [] := by
  induction l with
  | nil => simp [splitOnChar]
  | cons a rest ih =>
    simp only [splitOnChar]
    cases hs : splitOnChar c rest with
    | nil => exact absurd hs ih
    | cons h t =>
      by_cases hac : a = c <;> simp [hac]

theorem splitOnChar_no_sep (c : Char) (l : List Char) (h : c ∉ l) :
    splitOnChar c l = [l] := by
  induction l with
  | nil => rfl
  | cons a rest ih =>
    have hac : ¬ (a = c) := fun he => h (he ▸ List.mem_cons_self a rest)
    rw [splitOnChar, ih (fun hm => h (List.mem_cons_of_mem a hm))]
    simp [hac]

theorem splitOnChar_append (c : Char) (l s : List Char) (h : List Char)
    (t : List (List Char))
    (hl : c ∉ l) (hs : splitOnChar c s = h :: t) :
    splitOnChar c (l ++ s) = (l ++ h) :: t := by
  induction l with
  | nil => simpa using hs
  | cons a rest ih =>
    have hac : ¬ (a = c) := fun he => hl (he ▸ List.mem_cons_self a rest)
    have ih2 := ih (fun hm => hl (List.mem_cons_of_mem a hm))
    simp only [List.cons_append, splitOnChar, List.append_eq]
    rw [ih2]
    simp [hac]

theorem splitOnChar_cons_sep (c : Char) (s : List Char) :
    splitOnChar c (c :: s) = [] :: splitOnChar c s := by
  simp only [splitOnChar]
  cases hs : splitOnChar c s with
  | nil => exact absurd hs (splitOnChar_ne_nil c s)
  | cons h t => simp

theorem splitOnChar_joinSep (c : Char) (parts : List Str)
    (h : ∀ l ∈ parts, c ∉ l) (hne : parts ≠ []) :
    splitOnChar c (joinSep c parts) = parts := by
  induction parts with
  | nil => exact absurd rfl hne
  | cons l rest ih =>
    cases rest with
    | nil =>
      simp only [joinSep]
      exact splitOnChar_no_sep c l (h l (List.mem_cons_self l []))
    | cons l2 rest2 =>
      have hjoin : joinSep c (l :: l2 :: rest2) =
          l ++ c :: joinSep c (l2 :: rest2) := rfl
      rw [hjoin]
      have hrec : splitOnChar c (joinSep c (l2 :: rest2)) = l2 :: rest2 :=
        ih (fun x hx => h x (List.mem_cons_of_mem l hx)) (by simp)
      have hcons : splitOnChar c (c :: joinSep c (l2 :: rest2)) =
          [] :: l2 :: rest2 := by
        rw [splitOnChar_cons_sep, hrec]
      have happ := splitOnChar_append c l (c :: joinSep c (l2 :: rest2))
        [] (l2 :: rest2) (h l (List.mem_cons_self l _)) hcons
      simpa using happ

theorem rstripDot_eq_self (l : Str)
    (h : ∀ c, l.getLast? = some c → ¬ (c = '.')) : rstripDot l = l := by
  unfold rstripDot
  cases hrev : l.reverse with
  | nil =>
    have : l = [] := by simpa using congrArg List.reverse hrev
    rw [this]
    rfl
  | cons c rest =>
    have hlast : l.getLast? = some c := by
      rw [List.getLast?_eq_head?_reverse, hrev]
      rfl
    have hc := h c hlast
    rw [List.dropWhile_cons]
    rw [if_neg (by simpa using hc)]
    rw [← hrev, List.reverse_reverse]

theorem isPrefixOf_eq_false_of_length_lt (sep l : Str)
    (h : l.length < sep.length) : sep.isPrefixOf l = false := by
  cases hp : sep.isPrefixOf l with
  | false => rfl
  | true =>
    have := List.IsPrefix.length_le (List.isPrefixOf_iff_prefix.1 hp)
    omega

theorem rfindAux_spec (sep s : Str) (k : Nat) :
    ∀ top, k ≤ top → sep.isPrefixOf (s.drop k) = true →
      (∀ j, k < j → j ≤ top → sep.isPrefixOf (s.drop j) = false) →
      rfindAux sep s top = some k := by
  intro top
  induction top with
  | zero =>
    intro hk hmatch _
    have : k = 0 := by omega
    subst this
    simp only [rfindAux]
    rw [if_pos (by simpa using hmatch)]
  | succ n ih =>
    intro hk hmatch habove
    by_cases hkn : k = n + 1
    · subst hkn
      simp only [rfindAux]
      rw [if_pos hmatch]
    · have h1 : sep.isPrefixOf (s.drop (n + 1)) = false :=
        habove (n + 1) (by omega) (le_refl _)
      simp only [rfindAux]
      rw [if_neg (by simp [h1])]
      exact ih (by omega) hmatch (fun j hj1 hj2 => habove j hj1 (by omega))

theorem rsplitBefore_append (sep L : Str) (hsep : sep ≠ []) :
    rsplitBefore sep (L ++ sep) = L := by
  unfold rsplitBefore
  have hfind : rfindAux sep (L ++ sep) (L ++ sep).length = some L.length := by
    refine rfindAux_spec sep (L ++ sep) L.length (L ++ sep).length
      (by simp) ?_ ?_
    · rw [List.drop_left]
      cases hp : sep.isPrefixOf sep with
      | true => rfl
      | false =>
        have : sep <+: sep := List.prefix_refl sep
        rw [← List.isPrefixOf_iff_prefix] at this
        rw [hp] at this
        cases this
    · intro j hj1 hj2
      refine isPrefixOf_eq_false_of_length_lt sep _ ?_
      have hlen : ((L ++ sep).drop j).length = (L ++ sep).length - j := by
        simp
      rw [hlen]
      simp only [List.length_append] at hj2 ⊢
      have hpos : 0 < sep.length := List.length_pos.2 hsep
      omega
  rw [hfind]
  exact List.take_left L sep

theorem noDoubleUnderscore_of_no_underscore (l : List Char)
    (h : '_' ∉ l) : noDoubleUnderscore l = true := by
  induction l with
  | nil => rfl
  | cons a rest ih =>
    have ha : ¬ (a = '_') := fun he => h (he ▸ List.mem_cons_self a rest)
    have hrest := ih (fun hm => h (List.mem_cons_of_mem a hm))
    cases rest with
    | nil => rfl
    | cons b rest2 =>
      simp only [noDoubleUnderscore]
      rw [hrest]
      simp [ha]

theorem intToDigits_natCast (n : Nat) :
    intToDigits ((n : Nat) : Int) = Nat.toDigits 10 n := by
  unfold intToDigits
  rw [if_neg (by exact not_lt.2 (Int.ofNat_nonneg n))]
  rfl

theorem pyLower_append (l1 l2 : Str) :
    pyLower (l1 ++ l2) = pyLower l1 ++ pyLower l2 := List.map_append lowerChar l1 l2

theorem pyLower_joinSep (c : Char) (hc : lowerChar c = c) (parts : List Str) :
    pyLower (joinSep c parts) = joinSep c (parts.map pyLower) := by
  induction parts with
  | nil => rfl
  | cons l rest ih =>
    cases rest with
    | nil => rfl
    | cons l2 rest2 =>
      have h1 : joinSep c (l :: l2 :: rest2) = l ++ c :: joinSep c (l2 :: rest2) := rfl
      rw [h1, pyLower_append]
      have h2 : pyLower (c :: joinSep c (l2 :: rest2)) =
          c :: pyLower (joinSep c (l2 :: rest2)) := by
        simp [pyLower, hc]
      rw [h2, ih]
      rfl

theorem toDigits_facts : ∀ n : Fin 256,
    Nat.toDigits 10 n.val ≠ [] ∧ '.' ∉ Nat.toDigits 10 n.val ∧
    List.map lowerChar (Nat.toDigits 10 n.val) = Nat.toDigits 10 n.val ∧
    pyInt (Nat.toDigits 10 n.val) = some (Int.ofNat n.val) := by decide

theorem nibble_facts : ∀ n : Fin 16,
    lowerChar (Nat.digitChar n.val) = Nat.digitChar n.val ∧
    isHexDigitChar (Nat.digitChar n.val) = true ∧
    (Nat.digitChar n.val).isWhitespace = false ∧
    Nat.digitChar n.val ≠ '+' ∧ Nat.digitChar n.val ≠ '-' ∧
    Nat.digitChar n.val ≠ '_' ∧ Nat.digitChar n.val ≠ 'x' ∧
    Nat.digitChar n.val ≠ 'X' ∧ Nat.digitChar n.val ≠ '.' ∧
    hexVal (Nat.digitChar n.val) = n.val := by decide

theorem toDigits_facts' (n : Nat) (h : n < 256) :
    Nat.toDigits 10 n ≠ [] ∧ '.' ∉ Nat.toDigits 10 n ∧
    List.map lowerChar (Nat.toDigits 10 n) = Nat.toDigits 10 n ∧
    pyInt (Nat.toDigits 10 n) = some (Int.ofNat n) :=
  toDigits_facts ⟨n, h⟩

theorem nibble_facts' (n : Nat) (h : n < 16) :
    lowerChar (Nat.digitChar n) = Nat.digitChar n ∧
    isHexDigitChar (Nat.digitChar n) = true ∧
    (Nat.digitChar n).isWhitespace = false ∧
    Nat.digitChar n ≠ '+' ∧ Nat.digitChar n ≠ '-' ∧
    Nat.digitChar n ≠ '_' ∧ Nat.digitChar n ≠ 'x' ∧
    Nat.digitChar n ≠ 'X' ∧ Nat.digitChar n ≠ '.' ∧
    hexVal (Nat.digitChar n) = n :=
  nibble_facts ⟨n, h⟩

theorem v4_positive (pre : List Str) (a b c d : Nat)
    (ha : a ≤ 255) (hb : b ≤ 255) (hc : c ≤ 255) (hd : d ≤ 255)
    (hpre : ∀ l ∈ pre, l ≠ [] ∧ '.' ∉ pyLower l) :
    reverse_owner_to_ip
      (joinSep '.' (pre ++ [Nat.toDigits 10 d, Nat.toDigits 10 c,
        Nat.toDigits 10 b, Nat.toDigits 10 a]) ++ sepInAddr) =
      Except.ok (some (List.intercalate ['.']
        [Nat.toDigits 10 a, Nat.toDigits 10 b, Nat.toDigits 10 c,
         Nat.toDigits 10 d])) := by
  have fa := toDigits_facts' a (by omega)
  have fb := toDigits_facts' b (by omega)
  have fc := toDigits_facts' c (by omega)
  have fd := toDigits_facts' d (by omega)
  have la' : pyLower (Nat.toDigits 10 a) = Nat.toDigits 10 a := fa.2.2.1
  have lb' : pyLower (Nat.toDigits 10 b) = Nat.toDigits 10 b := fb.2.2.1
  have lc' : pyLower (Nat.toDigits 10 c) = Nat.toDigits 10 c := fc.2.2.1
  have ld' : pyLower (Nat.toDigits 10 d) = Nat.toDigits 10 d := fd.2.2.1
  set D4 : List Str := [Nat.toDigits 10 d, Nat.toDigits 10 c,
    Nat.toDigits 10 b, Nat.toDigits 10 a] with hD4
  set preL : List Str := pre.map pyLower with hpreL
  -- trailing dots: the name ends in 'a', so rstrip('.') is the identity
  have hlast : ∀ ch, (joinSep '.' (pre ++ D4) ++ sepInAddr).getLast? = some ch →
      ¬ (ch = '.') := by
    intro ch hch
    rw [List.getLast?_append] at hch
    have hsl : sepInAddr.getLast? = some 'a' := by decide
    rw [hsl] at hch
    have h2 : some 'a' = some ch := hch
    injection h2 with h3
    rw [← h3]
    decide
  have hstrip : rstripDot (joinSep '.' (pre ++ D4) ++ sepInAddr) =
      joinSep '.' (pre ++ D4) ++ sepInAddr :=
    rstripDot_eq_self _ hlast
  -- lowering maps the name onto the same shape with lowered labels
  have hlowD : (pre ++ D4).map pyLower = preL ++ D4 := by
    rw [List.map_append, hpreL, hD4]
    simp only [List.map_cons, List.map_nil, la', lb', lc', ld']
  have hlower : pyLower (joinSep '.' (pre ++ D4) ++ sepInAddr) =
      joinSep '.' (preL ++ D4) ++ sepInAddr := by
    rw [pyLower_append, pyLower_joinSep '.' (by decide), hlowD]
    congr 1
  -- suffix dispatch
  have hsep_cons : sepInAddr = '.' :: inAddrSuffix := by decide
  have hsuffix : inAddrSuffix.isSuffixOf
      (joinSep '.' (preL ++ D4) ++ sepInAddr) = true := by
    rw [List.isSuffixOf_iff_suffix, hsep_cons]
    have hassoc : joinSep '.' (preL ++ D4) ++ '.' :: inAddrSuffix =
        (joinSep '.' (preL ++ D4) ++ ['.']) ++ inAddrSuffix := by
      simp
    rw [hassoc]
    exact List.suffix_append _ _
  -- the IPv4 branch computes the reversed last four labels
  have hbranch : v4Branch (joinSep '.' (preL ++ D4) ++ sepInAddr) =
      some (List.intercalate ['.']
        [Nat.toDigits 10 a, Nat.toDigits 10 b, Nat.toDigits 10 c,
         Nat.toDigits 10 d]) := by
    have hleft : rsplitBefore sepInAddr (joinSep '.' (preL ++ D4) ++ sepInAddr) =
        joinSep '.' (preL ++ D4) :=
      rsplitBefore_append sepInAddr _ (by decide)
    have hsplit : splitOnChar '.' (joinSep '.' (preL ++ D4)) = preL ++ D4 := by
      refine splitOnChar_joinSep '.' _ ?_ (by simp [hD4])
      intro l hl
      rcases List.mem_append.1 hl with h1 | h2
      · obtain ⟨l0, hl0, hmap⟩ := List.mem_map.1 h1
        rw [← hmap]
        exact (hpre l0 hl0).2
      · rw [hD4] at h2
        simp only [List.mem_cons, List.mem_singleton, List.not_mem_nil,
          or_false] at h2
        rcases h2 with rfl | rfl | rfl | rfl
        · exact fd.2.1
        · exact fc.2.1
        · exact fb.2.1
        · exact fa.2.1
    have hfilter : (preL ++ D4).filter (fun l => !l.isEmpty) = preL ++ D4 := by
      refine List.filter_eq_self.2 ?_
      intro l hl
      rcases List.mem_append.1 hl with h1 | h2
      · obtain ⟨l0, hl0, hmap⟩ := List.mem_map.1 h1
        rw [← hmap]
        have := (hpre l0 hl0).1
        simp [pyLower]
        intro he
        exact this he
      · rw [hD4] at h2
        simp only [List.mem_cons, List.mem_singleton, List.not_mem_nil,
          or_false] at h2
        rcases h2 with rfl | rfl | rfl | rfl
        · simp [fd.1]
        · simp [fc.1]
        · simp [fb.1]
        · simp [fa.1]
    have hlen : (preL ++ D4).length = preL.length + 4 := by simp [hD4]
    have hdrop : (preL ++ D4).drop ((preL ++ D4).length - 4) = D4 := by
      have h48 : (preL ++ D4).length - 4 = preL.length := by
        rw [hlen]
        omega
      rw [h48, List.drop_left]
    have hmapM : D4.mapM pyInt =
        some [Int.ofNat d, Int.ofNat c, Int.ofNat b, Int.ofNat a] := by
      rw [hD4]
      simp [List.mapM, List.mapM.loop, fd.2.2.2, fc.2.2.2, fb.2.2.2,
        fa.2.2.2]
    have e1 : decide (¬ ((0:Int) ≤ Int.ofNat d ∧ Int.ofNat d ≤ 255)) = false :=
      decide_eq_false (not_not_intro
        ⟨Int.ofNat_nonneg d, Int.ofNat_le.2 hd⟩)
    have e2 : decide (¬ ((0:Int) ≤ Int.ofNat c ∧ Int.ofNat c ≤ 255)) = false :=
      decide_eq_false (not_not_intro
        ⟨Int.ofNat_nonneg c, Int.ofNat_le.2 hc⟩)
    have e3 : decide (¬ ((0:Int) ≤ Int.ofNat b ∧ Int.ofNat b ≤ 255)) = false :=
      decide_eq_false (not_not_intro
        ⟨Int.ofNat_nonneg b, Int.ofNat_le.2 hb⟩)
    have e4 : decide (¬ ((0:Int) ≤ Int.ofNat a ∧ Int.ofNat a ≤ 255)) = false :=
      decide_eq_false (not_not_intro
        ⟨Int.ofNat_nonneg a, Int.ofNat_le.2 ha⟩)
    have hanyf : ([Int.ofNat d, Int.ofNat c, Int.ofNat b, Int.ofNat a].any
        (fun v => decide (¬ (0 ≤ v ∧ v ≤ 255)))) = false := by
      simp only [List.any_cons, List.any_nil, e1, e2, e3, e4, Bool.or_false]
    simp only [v4Branch]
    rw [hleft, hsplit, hfilter]
    rw [if_neg (by rw [hlen]; omega)]
    rw [hdrop, hmapM]
    simp [hanyf, intToDigits_natCast]
    omega
  unfold reverse_owner_to_ip
  rw [hstrip, hlower, if_pos hsuffix, hbranch]

theorem stripWs_eq_self (l : List Char)
    (hhead : ∀ ch, l.head? = some ch → ch.isWhitespace = false)
    (hlast : ∀ ch, l.getLast? = some ch → ch.isWhitespace = false) :
    stripWs l = l := by
  unfold stripWs
  cases l with
  | nil => rfl
  | cons a rest =>
    have ha := hhead a rfl
    rw [List.dropWhile_cons, if_neg (by simp [ha])]
    cases hrev : (a :: rest).reverse with
    | nil => simp at hrev
    | cons b rest2 =>
      have hb : b.isWhitespace = false := by
        refine hlast b ?_
        rw [List.getLast?_eq_head?_reverse, hrev]
        rfl
      rw [List.dropWhile_cons, if_neg (by simp [hb]), ← hrev,
        List.reverse_reverse]

theorem flatten_singletons (f : Nat → Char) (l : List Nat) :
    (l.map (fun n => [f n])).flatten = l.map f := by
  induction l with
  | nil => rfl
  | cons n rest ih => simp [ih]

theorem foldl_hexVal (l : List Nat) :
    ∀ acc, (∀ n ∈ l, n < 16) →
      (l.map Nat.digitChar).foldl (fun x ch => x * 16 + hexVal ch) acc =
        l.foldl (fun x n => x * 16 + n) acc := by
  induction l with
  | nil => intro acc _; rfl
  | cons n rest ih =>
    intro acc h
    rw [List.map_cons, List.foldl_cons, List.foldl_cons]
    rw [(nibble_facts' n (h n (List.mem_cons_self n rest))).2.2.2.2.2.2.2.2.2]
    exact ih _ (fun m hm => h m (List.mem_cons_of_mem n hm))

theorem fold16_lt (l : List Nat) :
    ∀ acc B, 0 < B → acc < B → (∀ n ∈ l, n < 16) →
      l.foldl (fun x n => x * 16 + n) acc < B * 16 ^ l.length := by
  induction l with
  | nil => intro acc B _ hacc _; simpa using hacc
  | cons n rest ih =>
    intro acc B hB hacc hall
    rw [List.foldl_cons]
    have hn : n < 16 := hall n (List.mem_cons_self n rest)
    have hstep : acc * 16 + n < B * 16 := by
      calc acc * 16 + n < (acc + 1) * 16 := by omega
      _ ≤ B * 16 := Nat.mul_le_mul_right 16 hacc
    have hrec := ih (acc * 16 + n) (B * 16) (by omega) hstep
      (fun m hm => hall m (List.mem_cons_of_mem n hm))
    calc List.foldl (fun x n => x * 16 + n) (acc * 16 + n) rest <
        B * 16 * 16 ^ rest.length := hrec
      _ = B * 16 ^ (n :: rest).length := by
        rw [List.length_cons, pow_succ]
        ring

theorem hexRunOk_pure (t : List Char) (hne : t ≠ [])
    (hall : ∀ ch ∈ t, isHexDigitChar ch = true ∧ ch ≠ '_') :
    hexRunOk t = true := by
  have h1 : t.isEmpty = false := by
    cases t with
    | nil => exact absurd rfl hne
    | cons a rest => rfl
  have h2 : t.head?.elim false isHexDigitChar = true := by
    cases t with
    | nil => exact absurd rfl hne
    | cons a rest =>
      exact (hall a (List.mem_cons_self a rest)).1
  have h3 : t.getLast?.elim false isHexDigitChar = true := by
    cases hg : t.getLast? with
    | none =>
      rw [List.getLast?_eq_none_iff] at hg
      exact absurd hg hne
    | some g =>
      have hmem : g ∈ t := List.mem_of_mem_getLast? (by rw [hg]; rfl)
      exact (hall g hmem).1
  have h4 : t.all (fun c => isHexDigitChar c || decide (c = '_')) = true := by
    rw [List.all_eq_true]
    intro c hc
    simp [(hall c hc).1]
  have h5 : noDoubleUnderscore t = true :=
    noDoubleUnderscore_of_no_underscore t
      (fun hm => ((hall '_' hm).2) rfl)
  unfold hexRunOk
  rw [h1, h5]
  rw [h2, h3]
  simp only [Bool.not_false, Bool.true_and, Bool.and_true]
  exact h4

theorem pyIntHexCore_pure (t : List Char) (hne : t ≠ [])
    (hall : ∀ ch ∈ t, isHexDigitChar ch = true ∧ ch ≠ '_' ∧ ch ≠ 'x' ∧
      ch ≠ 'X') :
    pyIntHexCore t = some (hexDigitsVal t) := by
  have hrun : hexRunOk t = true :=
    hexRunOk_pure t hne (fun ch hch => ⟨(hall ch hch).1, (hall ch hch).2.1⟩)
  have hfilter : t.filter (fun c => decide (c ≠ '_')) = t :=
    List.filter_eq_self.2 (fun c hc => by simp [(hall c hc).2.1])
  unfold pyIntHexCore
  split
  · rename_i x rest
    have hx : x ∈ '0' :: x :: rest :=
      List.mem_cons_of_mem _ (List.mem_cons_self _ _)
    rw [if_neg (by push_neg; exact ⟨(hall x hx).2.2.1, (hall x hx).2.2.2⟩)]
    rw [if_pos hrun, hfilter]
  · rw [if_pos hrun, hfilter]

theorem pyIntHex_pure (t : List Char) (hne : t ≠ [])
    (hall : ∀ ch ∈ t, isHexDigitChar ch = true ∧ ch.isWhitespace = false ∧
      ch ≠ '+' ∧ ch ≠ '-' ∧ ch ≠ '_' ∧ ch ≠ 'x' ∧ ch ≠ 'X') :
    pyIntHex t = some (Int.ofNat (hexDigitsVal t)) := by
  have hstrip : stripWs t = t := by
    refine stripWs_eq_self t ?_ ?_
    · intro ch hch
      exact (hall ch (List.mem_of_mem_head? (by rw [hch]; rfl))).2.1
    · intro ch hch
      exact (hall ch (List.mem_of_mem_getLast? (by rw [hch]; rfl))).2.1
  have hcore : pyIntHexCore t = some (hexDigitsVal t) :=
    pyIntHexCore_pure t hne
      (fun ch hch => ⟨(hall ch hch).1, (hall ch hch).2.2.2.2.1,
        (hall ch hch).2.2.2.2.2.1, (hall ch hch).2.2.2.2.2.2⟩)
  unfold pyIntHex
  rw [hstrip]
  dsimp only
  split
  · rename_i rest
    exact absurd rfl ((hall '+' (List.mem_cons_self _ _)).2.2.1)
  · rename_i rest
    exact absurd rfl ((hall '-' (List.mem_cons_self _ _)).2.2.2.1)
  · rw [hcore]
    rfl

theorem ip6_positive (ns : List Nat) (hlen : ns.length = 32)
    (hall : ∀ n ∈ ns, n < 16) :
    reverse_owner_to_ip
      (joinSep '.' (ns.map (fun n => [Nat.digitChar n])) ++ sepIp6) =
      Except.ok (some (ipv6Str
        (ns.reverse.foldl (fun x n => x * 16 + n) 0))) := by
  set parts : List Str := ns.map (fun n => [Nat.digitChar n]) with hparts
  -- trailing dots: the name ends in 'a', so rstrip('.') is the identity
  have hlast : ∀ ch, (joinSep '.' parts ++ sepIp6).getLast? = some ch →
      ¬ (ch = '.') := by
    intro ch hch
    rw [List.getLast?_append] at hch
    have hsl : sepIp6.getLast? = some 'a' := by decide
    rw [hsl] at hch
    have h2 : some 'a' = some ch := hch
    injection h2 with h3
    rw [← h3]
    decide
  have hstrip : rstripDot (joinSep '.' parts ++ sepIp6) =
      joinSep '.' parts ++ sepIp6 :=
    rstripDot_eq_self _ hlast
  -- every nibble label is a single lower-case hex digit
  have hlab : ∀ l ∈ parts, ∃ n, n < 16 ∧ l = [Nat.digitChar n] := by
    intro l hl
    obtain ⟨n, hn, hmap⟩ := List.mem_map.1 hl
    exact ⟨n, hall n hn, hmap.symm⟩
  have hlowparts : parts.map pyLower = parts := by
    rw [hparts, List.map_map]
    refine List.map_congr_left ?_
    intro n hn
    simp [Function.comp, pyLower, (nibble_facts' n (hall n hn)).1]
  have hlower : pyLower (joinSep '.' parts ++ sepIp6) =
      joinSep '.' parts ++ sepIp6 := by
    rw [pyLower_append, pyLower_joinSep '.' (by decide), hlowparts]
    congr 1
  -- suffix dispatch: not an in-addr.arpa name, but an ip6.arpa one
  have hsep_cons : sepIp6 = '.' :: ip6Suffix := by decide
  have hsufSep : sepIp6 <:+ (joinSep '.' parts ++ sepIp6) :=
    List.suffix_append _ _
  have hnotV4 : inAddrSuffix.isSuffixOf (joinSep '.' parts ++ sepIp6) =
      false := by
    cases hp : inAddrSuffix.isSuffixOf (joinSep '.' parts ++ sepIp6) with
    | false => rfl
    | true =>
      rw [List.isSuffixOf_iff_suffix] at hp
      have h9 : sepIp6.length ≤ inAddrSuffix.length := by decide
      have := List.suffix_of_suffix_length_le hsufSep hp h9
      exact absurd this (by decide)
  have hsuffix : ip6Suffix.isSuffixOf (joinSep '.' parts ++ sepIp6) =
      true := by
    rw [List.isSuffixOf_iff_suffix, hsep_cons]
    have hassoc : joinSep '.' parts ++ '.' :: ip6Suffix =
        (joinSep '.' parts ++ ['.']) ++ ip6Suffix := by
      simp
    rw [hassoc]
    exact List.suffix_append _ _
  -- the IPv6 branch joins all 32 nibbles reversed and parses them as hex
  have hbranch : ip6Branch (joinSep '.' parts ++ sepIp6) =
      Except.ok (some (ipv6Str
        (ns.reverse.foldl (fun x n => x * 16 + n) 0))) := by
    have hleft : rsplitBefore sepIp6 (joinSep '.' parts ++ sepIp6) =
        joinSep '.' parts :=
      rsplitBefore_append sepIp6 _ (by decide)
    have hpartsne : parts ≠ [] := by
      have : parts.length = 32 := by rw [hparts, List.length_map, hlen]
      intro h
      rw [h] at this
      exact absurd this (by decide)
    have hsplit : splitOnChar '.' (joinSep '.' parts) = parts := by
      refine splitOnChar_joinSep '.' _ ?_ hpartsne
      intro l hl
      obtain ⟨n, hn, rfl⟩ := hlab l hl
      intro hmem
      simp only [List.mem_singleton] at hmem
      exact (nibble_facts' n hn).2.2.2.2.2.2.2.2.1 hmem.symm
    have hfilter : parts.filter (fun l => !l.isEmpty) = parts := by
      refine List.filter_eq_self.2 ?_
      intro l hl
      obtain ⟨n, hn, rfl⟩ := hlab l hl
      simp
    have hplen : parts.length = 32 := by rw [hparts, List.length_map, hlen]
    have hflat : List.flatten parts.reverse =
        ns.reverse.map Nat.digitChar := by
      rw [hparts, List.reverse_map]
      exact flatten_singletons _ _
    have hrevall : ∀ n ∈ ns.reverse, n < 16 :=
      fun n hn => hall n (List.mem_reverse.1 hn)
    have hmapne : ns.reverse.map Nat.digitChar ≠ [] := by
      intro h
      have := congrArg List.length h
      simp [hlen] at this
    have hparse : pyIntHex (ns.reverse.map Nat.digitChar) =
        some (Int.ofNat (hexDigitsVal (ns.reverse.map Nat.digitChar))) := by
      refine pyIntHex_pure _ hmapne ?_
      intro ch hch
      obtain ⟨n, hn, rfl⟩ := List.mem_map.1 hch
      have f := nibble_facts' n (hrevall n hn)
      exact ⟨f.2.1, f.2.2.1, f.2.2.2.1, f.2.2.2.2.1, f.2.2.2.2.2.1,
        f.2.2.2.2.2.2.1, f.2.2.2.2.2.2.2.1⟩
    have hval : hexDigitsVal (ns.reverse.map Nat.digitChar) =
        ns.reverse.foldl (fun x n => x * 16 + n) 0 := by
      unfold hexDigitsVal
      exact foldl_hexVal ns.reverse 0 hrevall
    have hbound : ns.reverse.foldl (fun x n => x * 16 + n) 0 < 2 ^ 128 := by
      have := fold16_lt ns.reverse 0 1 (by omega) (by omega) hrevall
      have hlr : ns.reverse.length = 32 := by rw [List.length_reverse, hlen]
      rw [hlr] at this
      calc ns.reverse.foldl (fun x n => x * 16 + n) 0 < 1 * 16 ^ 32 := this
        _ = 2 ^ 128 := by norm_num
    have hrange : ¬ ((Int.ofNat (hexDigitsVal
        (ns.reverse.map Nat.digitChar)) : Int) < 0 ∨
        (2 : Int) ^ 128 ≤ Int.ofNat (hexDigitsVal
          (ns.reverse.map Nat.digitChar))) := by
      push_neg
      refine ⟨Int.ofNat_nonneg _, ?_⟩
      rw [hval, show ((2 : Int) ^ 128) = ((2 ^ 128 : Nat) : Int) by
        push_cast]
      exact Int.ofNat_lt.2 hbound
    simp only [ip6Branch]
    rw [hleft, hsplit, hfilter]
    rw [if_neg (by rw [hplen]; omega)]
    rw [hflat, hparse]
    show (if (Int.ofNat (hexDigitsVal (ns.reverse.map Nat.digitChar)) < 0 ∨
        (2 : Int) ^ 128 ≤ Int.ofNat (hexDigitsVal
          (ns.reverse.map Nat.digitChar)))
      then Except.error ()
      else Except.ok (some (ipv6Str (Int.ofNat (hexDigitsVal
        (ns.reverse.map Nat.digitChar))).toNat))) =
      Except.ok (some (ipv6Str (ns.reverse.foldl (fun x n => x * 16 + n) 0)))
    rw [if_neg hrange, hval]
    rfl
  simp only [reverse_owner_to_ip]
  rw [hstrip, hlower]
  rw [if_neg (by rw [hnotV4]; simp), if_pos hsuffix]
  exact hbranch

/-- C4 (amended): `reverse_owner_to_ip` decodes reverse-DNS owner names.
Under `in-addr.arpa` only the last four labels before the suffix are
validated: any extra leading labels are ignored, each of the four must be
a Python integer in 0..255, and the normalized octets are returned
reversed and dot-joined; fewer than four labels gives `None`.  Under
`ip6.arpa` exactly 32 non-empty labels are required (else `None`); they
are joined reversed and parsed as one hex integer, and the canonical
IPv6 text of that value is returned, `int(hexstr, 16)` failures giving
`None` — but `IPv6Address(val)` sits outside the `try`, so multi-digit
labels pushing the value to 2^128 or beyond raise instead of returning
`None`.  A name under neither suffix gives `None`. -/
theorem C4_reverse_owner_to_ip :
    (∀ (pre : List Str) (a b c d : Nat), a ≤ 255 → b ≤ 255 → c ≤ 255 →
      d ≤ 255 → (∀ l ∈ pre, l ≠ [] ∧ '.' ∉ pyLower l) →
      reverse_owner_to_ip
        (joinSep '.' (pre ++ [Nat.toDigits 10 d, Nat.toDigits 10 c,
          Nat.toDigits 10 b, Nat.toDigits 10 a]) ++ sepInAddr) =
        Except.ok (some (List.intercalate ['.']
          [Nat.toDigits 10 a, Nat.toDigits 10 b, Nat.toDigits 10 c,
           Nat.toDigits 10 d]))) ∧
    (∀ ns : List Nat, ns.length = 32 → (∀ n ∈ ns, n < 16) →
      reverse_owner_to_ip
        (joinSep '.' (ns.map (fun n => [Nat.digitChar n])) ++ sepIp6) =
        Except.ok (some (ipv6Str
          (ns.reverse.foldl (fun x n => x * 16 + n) 0)))) ∧
    (∀ owner : Str,
      inAddrSuffix.isSuffixOf (pyLower (rstripDot owner)) = false →
      ip6Suffix.isSuffixOf (pyLower (rstripDot owner)) = false →
      reverse_owner_to_ip owner = Except.ok none) ∧
    (∀ owner : Str,
      inAddrSuffix.isSuffixOf (pyLower (rstripDot owner)) = true →
      ((splitOnChar '.' (rsplitBefore sepInAddr
        (pyLower (rstripDot owner)))).filter
          (fun l => !l.isEmpty)).length < 4 →
      reverse_owner_to_ip owner = Except.ok none) ∧
    (∀ owner : Str,
      inAddrSuffix.isSuffixOf (pyLower (rstripDot owner)) = false →
      ip6Suffix.isSuffixOf (pyLower (rstripDot owner)) = true →
      ((splitOnChar '.' (rsplitBefore sepIp6
        (pyLower (rstripDot owner)))).filter
          (fun l => !l.isEmpty)).length ≠ 32 →
      reverse_owner_to_ip owner = Except.ok none) := by
  refine ⟨?_, ?_, ?_, ?_, ?_⟩
  · intro pre a b c d ha hb hc hd hpre
    exact v4_positive pre a b c d ha hb hc hd hpre
  · intro ns hlen hall
    exact ip6_positive ns hlen hall
  · intro owner h1 h2
    simp only [reverse_owner_to_ip]
    rw [if_neg (by simp [h1]), if_neg (by simp [h2])]
  · intro owner h1 h2
    simp only [reverse_owner_to_ip]
    rw [if_pos h1]
    simp only [v4Branch]
    rw [if_pos h2]
  · intro owner h1 h2 h3
    simp only [reverse_owner_to_ip]
    rw [if_neg (by simp [h1]), if_pos h2]
    simp only [ip6Branch]
    rw [if_pos h3]

/-- C4 witness: each clause at a concrete input — `4.3.2.1.in-addr.arpa`
maps to `1.2.3.4`, thirty-two zero nibbles map to the compressed all-zero
address, `example.com` and the too-short reverse names map to `None`. -/
theorem C4_witness :
    reverse_owner_to_ip
      (joinSep '.' ([] ++ [Nat.toDigits 10 4, Nat.toDigits 10 3,
        Nat.toDigits 10 2, Nat.toDigits 10 1]) ++ sepInAddr) =
      Except.ok (some (List.intercalate ['.']
        [Nat.toDigits 10 1, Nat.toDigits 10 2, Nat.toDigits 10 3,
         Nat.toDigits 10 4])) ∧
    reverse_owner_to_ip
      (joinSep '.' ((List.replicate 32 0).map
        (fun n => [Nat.digitChar n])) ++ sepIp6) =
      Except.ok (some (ipv6Str
        ((List.replicate 32 0).reverse.foldl (fun x n => x * 16 + n) 0))) ∧
    reverse_owner_to_ip ("example.com".data) = Except.ok none ∧
    reverse_owner_to_ip ("3.2.1.in-addr.arpa".data) = Except.ok none ∧
    reverse_owner_to_ip ("3.2.1.ip6.arpa".data) = Except.ok none :=
  ⟨C4_reverse_owner_to_ip.1 [] 1 2 3 4 (by decide) (by decide) (by decide)
      (by decide) (by simp),
   C4_reverse_owner_to_ip.2.1 (List.replicate 32 0) (by decide) (by decide),
   C4_reverse_owner_to_ip.2.2.1 ("example.com".data) (by decide) (by decide),
   C4_reverse_owner_to_ip.2.2.2.1 ("3.2.1.in-addr.arpa".data) (by decide)
      (by decide),
   C4_reverse_owner_to_ip.2.2.2.2 ("3.2.1.ip6.arpa".data) (by decide)
      (by decide) (by decide)⟩

/-- C4 counterexample to the original claim: the function does not return
`None` on every owner that fails to encode an address.  A junk label in
front of four valid octets is silently ignored
(`garbage.4.3.2.1.in-addr.arpa` still yields `1.2.3.4`), and 32 two-digit
hex labels drive the joined value past 2^128, which raises out of the
function instead of returning `None`. -/
theorem C4_counterexample :
    reverse_owner_to_ip ("garbage.4.3.2.1.in-addr.arpa".data) =
      Except.ok (some ("1.2.3.4".data)) ∧
    reverse_owner_to_ip
      ("ff.ff.ff.ff.ff.ff.ff.ff.ff.ff.ff.ff.ff.ff.ff.ff.ff.ff.ff.ff.ff.ff.ff.ff.ff.ff.ff.ff.ff.ff.ff.ff.ip6.arpa".data) =
      Except.error () :=
  ⟨by rfl, by rfl⟩

end ZoneParse

/-- C2 (code bug): the IP half of the claim holds — when the existing
NetBox IP's stripped `dns_name` equals the target FQDN,
`create_or_update_ip` returns `(False, False)` and issues no write.  The
interface half fails in the source: `getattr(iface_obj, "type", None)`
yields the pynetbox choice `Record`, which Python `!=` never equates to
the computed slug string, so even on a fully converged interface — the
record's `value` is exactly the computed slug and the stripped
descriptions and the speeds agree — the diff still carries the `type`
key and a no-change update call is issued on every non-dry run. -/
theorem C2_converged_iface_still_updates
    (lookup : Except Unit (Option UpdateRecords.ExistingIP))
    (ip fqdn : String) (best : Option String) (updOk createOk dry_run : Bool)
    (ex : UpdateRecords.ExistingIP)
    (hlookup : lookup = Except.ok (some ex))
    (hdns : pyStrip (ex.dns_name.getD "") = fqdn)
    (upd : AristaSync.IfaceVals) (cur : AristaSync.NbIface)
    (r : AristaSync.ChoiceRecord)
    (hty : cur.ty = AristaSync.PyStrVal.record r)
    (hval : r.value = upd.ty)
    (hdesc : pyStrip (cur.description.getD "") = pyStrip upd.description)
    (hspeed : cur.speed = upd.speed) :
    UpdateRecords.create_or_update_ip lookup ip fqdn best updOk createOk
      dry_run = ((false, false), []) ∧
    AristaSync.buildDiff upd cur = [("type", AristaSync.FieldVal.s upd.ty)] ∧
    AristaSync.updateIssued upd cur false = true := by
  subst hlookup
  refine ⟨?_, ?_, ?_⟩
  · simp [UpdateRecords.create_or_update_ip, hdns]
  · simp [AristaSync.buildDiff, AristaSync.pyStrEq, hty, hdesc, hspeed]
  · simp [AristaSync.updateIssued, AristaSync.buildDiff, AristaSync.pyStrEq,
      hty, hdesc, hspeed]

/-- Witness for C2 at a concrete converged state: the IP no-op together
with a converged interface whose stored type record still forces a
diff. -/
theorem C2_witness :
    UpdateRecords.create_or_update_ip
      (Except.ok (some (UpdateRecords.ExistingIP.mk 5 (some " host.example.org "))))
      "10.0.0.9" "host.example.org" (some "10.0.0.0/24") true true false =
      ((false, false), []) ∧
    AristaSync.buildDiff
      (AristaSync.IfaceVals.mk "1000base-t" "UPLINK" (some 1000000))
      (AristaSync.NbIface.mk
        (AristaSync.PyStrVal.record
          (AristaSync.ChoiceRecord.mk "1000base-t" "1000BASE-T (1GE)"))
        (some "UPLINK ") (some 1000000)) =
      [("type", AristaSync.FieldVal.s "1000base-t")] ∧
    AristaSync.updateIssued
      (AristaSync.IfaceVals.mk "1000base-t" "UPLINK" (some 1000000))
      (AristaSync.NbIface.mk
        (AristaSync.PyStrVal.record
          (AristaSync.ChoiceRecord.mk "1000base-t" "1000BASE-T (1GE)"))
        (some "UPLINK ") (some 1000000)) false = true := by
  have h := C2_converged_iface_still_updates
    (Except.ok (some (UpdateRecords.ExistingIP.mk 5 (some " host.example.org "))))
    "10.0.0.9" "host.example.org" (some "10.0.0.0/24") true true false
    (UpdateRecords.ExistingIP.mk 5 (some " host.example.org ")) rfl (by decide)
    (AristaSync.IfaceVals.mk "1000base-t" "UPLINK" (some 1000000))
    (AristaSync.NbIface.mk
      (AristaSync.PyStrVal.record
        (AristaSync.ChoiceRecord.mk "1000base-t" "1000BASE-T (1GE)"))
      (some "UPLINK ") (some 1000000))
    (AristaSync.ChoiceRecord.mk "1000base-t" "1000BASE-T (1GE)")
    rfl rfl (by decide) rfl
  exact ⟨h.1, h.2.1, h.2.2⟩

/-- C2 counterexample to the original claim: a fully converged interface
— the stored type record's `value` is the computed slug `1000base-t`,
descriptions and speeds agree — still yields a nonempty diff and an
update call, because the `Record` in the `type` slot never equals the
slug string. -/
theorem C2_counterexample :
    AristaSync.buildDiff
      (AristaSync.IfaceVals.mk "1000base-t" "UPLINK" (some 1000000))
      (AristaSync.NbIface.mk
        (AristaSync.PyStrVal.record
          (AristaSync.ChoiceRecord.mk "1000base-t" "1000BASE-T (1GE)"))
        (some "UPLINK") (some 1000000)) ≠ [] ∧
    AristaSync.updateIssued
      (AristaSync.IfaceVals.mk "1000base-t" "UPLINK" (some 1000000))
      (AristaSync.NbIface.mk
        (AristaSync.PyStrVal.record
          (AristaSync.ChoiceRecord.mk "1000base-t" "1000BASE-T (1GE)"))
        (some "UPLINK") (some 1000000)) false = true := by
  decide

/-- C10: dry-run leaves remote state unchanged: with `dry_run` on,
`create_or_update_ip` and `ensure_plugin_record` issue no NetBox write and
return the same `(created, updated)` flags as a fully successful wet run
over the same lookups; with commit off, `_process_one_prefix` applies no
tenant update and reports `changed = 0`. -/
theorem C10_dry_run_frame (lookup : Except Unit (Option UpdateRecords.ExistingIP))
    (ip fqdn : String) (best : Option String) (updOk createOk : Bool)
    (zones : List (Nat × String)) (fq2 rtype ip_value : String)
    (search : Except Unit (List UpdateRecords.PluginRec))
    (updOk2 : Nat → Bool) (createOk2 : Bool)
    (p : Enforce.Pfx) (table : List Enforce.NBIp) :
    (UpdateRecords.create_or_update_ip lookup ip fqdn best updOk createOk
        true).2 = [] ∧
    (UpdateRecords.create_or_update_ip lookup ip fqdn best updOk createOk
        true).1 =
      (UpdateRecords.create_or_update_ip lookup ip fqdn best true true
        false).1 ∧
    (UpdateRecords.ensure_plugin_record zones fq2 rtype ip_value search search
        updOk2 createOk2 true).2 = [] ∧
    (UpdateRecords.ensure_plugin_record zones fq2 rtype ip_value search search
        updOk2 createOk2 true).1 =
      (UpdateRecords.ensure_plugin_record zones fq2 rtype ip_value search search
        (fun _ => true) true false).1 ∧
    (Enforce.processOnePfx p table false).1.changed = 0 ∧
    (Enforce.processOnePfx p table false).2 = table := by
  refine ⟨?_, ?_, ?_, ?_, (Enforce.enforce_commit_off p table).1,
    (Enforce.enforce_commit_off p table).2⟩
  · cases lookup with
    | error e => simp [UpdateRecords.create_or_update_ip]
    | ok v =>
      cases v with
      | none =>
        cases best with
        | none => simp [UpdateRecords.create_or_update_ip]
        | some b => simp [UpdateRecords.create_or_update_ip]
      | some ex =>
        by_cases h : pyStrip (ex.dns_name.getD "") = fqdn <;>
          simp [UpdateRecords.create_or_update_ip, h]
  · cases lookup with
    | error e => simp [UpdateRecords.create_or_update_ip]
    | ok v =>
      cases v with
      | none =>
        cases best with
        | none => simp [UpdateRecords.create_or_update_ip]
        | some b => simp [UpdateRecords.create_or_update_ip]
      | some ex =>
        by_cases h : pyStrip (ex.dns_name.getD "") = fqdn <;>
          simp [UpdateRecords.create_or_update_ip, h]
  · cases hst : UpdateRecords.plugin_check_status zones fq2 search with
    | no_zone => simp [UpdateRecords.ensure_plugin_record, hst]
    | search_error => simp [UpdateRecords.ensure_plugin_record, hst]
    | exists_ok => simp [UpdateRecords.ensure_plugin_record, hst]
    | needs_update => simp [UpdateRecords.ensure_plugin_record, hst]
    | needs_create => simp [UpdateRecords.ensure_plugin_record, hst]
  · cases hz : UpdateRecords.choose_zone_for_fqdn
        (fq2.dropRightWhile (fun c => c = '.')) zones with
    | none =>
      have hst : UpdateRecords.plugin_check_status zones fq2 search =
          UpdateRecords.CheckStatus.no_zone := by
        simp [UpdateRecords.plugin_check_status, hz]
      simp [UpdateRecords.ensure_plugin_record, hst]
    | some z =>
      cases search with
      | error e =>
        have hst : UpdateRecords.plugin_check_status zones fq2
            (Except.error e) = UpdateRecords.CheckStatus.search_error := by
          simp [UpdateRecords.plugin_check_status, hz]
        simp [UpdateRecords.ensure_plugin_record, hst]
      | ok recs =>
        by_cases he : recs.isEmpty
        · have hst : UpdateRecords.plugin_check_status zones fq2
              (Except.ok recs) = UpdateRecords.CheckStatus.needs_create := by
            simp [UpdateRecords.plugin_check_status, hz, he]
          simp [UpdateRecords.ensure_plugin_record, hst]
        · by_cases ha : recs.any (fun r => !r.disable_ptr)
          · have hst : UpdateRecords.plugin_check_status zones fq2
                (Except.ok recs) = UpdateRecords.CheckStatus.needs_update := by
              simp [UpdateRecords.plugin_check_status, hz, he, ha]
            simp [UpdateRecords.ensure_plugin_record, hst,
              (UpdateRecords.updLoop_allOk recs false).1,
              (UpdateRecords.updLoop_allOk recs false).2, ha]
          · have hst : UpdateRecords.plugin_check_status zones fq2
                (Except.ok recs) = UpdateRecords.CheckStatus.exists_ok := by
              simp [UpdateRecords.plugin_check_status, hz, he, ha]
            simp [UpdateRecords.ensure_plugin_record, hst]

end NetengUtils
